/-
Verification of the rust_arkitect architectural conformance checker.

Rust strings are modelled as lists of characters (`Str`); the separator
`"::"` is the two-character list `sep`.  Each Rust function referenced by
the claims is translated into a Lean definition keeping the source
structure and, where possible, the source name.  Panics are modelled by
`Option`/`Except` results.
-/
import Mathlib

namespace RustArkitect

/-- Rust `String` / `&str`, modelled as its character sequence. -/
abbrev Str := List Char

/-- The logical-path separator `"::"`. -/
def sep : Str := [':', ':']

/-- Rust `str::starts_with` on the character-list model. -/
def starts_with : Str → Str → Bool
  | _, [] => true
  | [], _ :: _ => false
  | c :: s, p :: ps => c == p && starts_with s ps

namespace RulesUtils

/-- Embeds `IsChild::is_child_of` from `src/rules/utils.rs`:
`self.starts_with(module)`, a plain string-prefix test. -/
def is_child_of (self module : Str) : Bool :=
  starts_with self module

end RulesUtils

namespace BuiltinRulesUtils

/-- Embeds `IsChild::is_child_of` from `src/builtin_rules/utils.rs`:
panics on an empty module (`none`), otherwise
`self == module || self.starts_with(&format!("{}::", module))`. -/
def is_child_of (self module : Str) : Option Bool :=
  if module = [] then none
  else some (self == module || starts_with self (module ++ sep))

end BuiltinRulesUtils

/-- Modelled from the spec (§4.1): logical path `a` is a descendant of `b`
iff `a` equals `b` or `a` begins with `b` followed by `"::"`. -/
def spec_descendant (a b : Str) : Bool :=
  a == b || starts_with a (b ++ sep)

/-- Rust `s.split("::").next().unwrap_or("")`: the text before the first
(leftmost) occurrence of `"::"`, or all of `s` when there is none. -/
def firstSegment : Str → Str
  | [] => []
  | ':' :: ':' :: _ => []
  | c :: rest => c :: firstSegment rest

/-- The text before the last (rightmost) occurrence of `"::"` in `s`,
or `none` when `"::"` does not occur. -/
def lastSplitBefore : Str → Option Str
  | [] => none
  | c :: rest =>
    match lastSplitBefore rest with
    | some b => some (c :: b)
    | none =>
      match c, rest with
      | ':', ':' :: _ => some []
      | _, _ => none

/-- Rust `s.rsplitn(2, "::").nth(1).unwrap_or("")`: everything before the
last `"::"`, or `""` when there is none (used to resolve `super`). -/
def superModule (s : Str) : Str :=
  (lastSplitBefore s).getD []

/-- Embeds `parts.join("::")`. -/
def joinSep : List Str → Str
  | [] => []
  | [x] => x
  | x :: y :: rest => x ++ sep ++ joinSep (y :: rest)

/-- Rust `s.split("::")` (leftmost, non-overlapping). Always non-empty. -/
def splitOnSep : Str → List Str
  | [] => [[]]
  | ':' :: ':' :: rest => [] :: splitOnSep rest
  | c :: rest =>
    match splitOnSep rest with
    | h :: t => (c :: h) :: t
    | [] => [[c]]

/-- Deduplication keeping the first occurrence (Rust
`filter(|dep| unique_set.insert(dep.clone()))`); `seen` is the set so far. -/
def dedupFirst (seen : List Str) : List Str → List Str
  | [] => []
  | x :: xs => if x ∈ seen then dedupFirst seen xs else x :: dedupFirst (x :: seen) xs

/-- Byte/character lexicographic order on strings, as used by Rust
`Vec::<String>::sort`. -/
def strLe : Str → Str → Bool
  | [], _ => true
  | _ :: _, [] => false
  | a :: as_, b :: bs => if a < b then true else if b < a then false else strLe as_ bs

/-- Rust `Vec::dedup`: removes consecutive repeated elements. -/
def dedupAdjacent : List Str → List Str
  | [] => []
  | [x] => [x]
  | x :: y :: rest =>
    if x = y then dedupAdjacent (y :: rest) else x :: dedupAdjacent (y :: rest)

instance : IsTotal Str (fun a b => strLe a b = true) where
  total a b := by
    induction a generalizing b with
    | nil => left; rfl
    | cons x xs ih =>
      cases b with
      | nil => right; rfl
      | cons y ys =>
        rcases lt_trichotomy x y with h | h | h
        · left; simp [strLe, h]
        · subst h
          rcases ih ys with h2 | h2
          · left; simp [strLe, lt_irrefl, h2]
          · right; simp [strLe, lt_irrefl, h2]
        · right; simp [strLe, h]

instance : IsTrans Str (fun a b => strLe a b = true) where
  trans a b c h1 h2 := by
    induction a generalizing b c with
    | nil => rfl
    | cons x xs ih =>
      cases b with
      | nil => simp [strLe] at h1
      | cons y ys =>
        cases c with
        | nil => simp [strLe] at h2
        | cons z zs =>
          simp only [strLe] at h1 h2 ⊢
          rcases lt_trichotomy x y with hxy | hxy | hxy
          · rcases lt_trichotomy y z with hyz | hyz | hyz
            · simp [lt_trans hxy hyz]
            · subst hyz; simp [hxy]
            · simp [hyz, asymm hyz] at h2
          · subst hxy
            rcases lt_trichotomy x z with hyz | hyz | hyz
            · simp [hyz]
            · subst hyz
              simp only [lt_irrefl, if_false] at h1 h2 ⊢
              exact ih _ _ h1 h2
            · simp [hyz, asymm hyz] at h2
          · simp [hxy, asymm hxy] at h1

/-! ### Dependency extraction (`src/dependency_parsing.rs`) -/

def crateKw : Str := "crate".toList

def superKw : Str := "super".toList

def globStar : Str := ['*']

/-- The alias table (`HashMap<String, String>`), as a lookup function. -/
def AliasMap := Str → Option Str

def AliasMap.insert (m : AliasMap) (k v : Str) : AliasMap :=
  fun x => if x = k then some v else m x

def emptyAliases : AliasMap := fun _ => none

mutual
/-- Embeds `syn::UseTree`. -/
inductive UseTree where
  | path : Str → UseTree → UseTree
  | group : UseForest → UseTree
  | name : Str → UseTree
  | glob : UseTree
  | rename : Str → Str → UseTree
/-- The item list of a `UseTree::Group`. -/
inductive UseForest where
  | nil : UseForest
  | cons : UseTree → UseForest → UseForest
end

mutual
/-- Embeds `collect_dependencies_from_tree(tree, dependencies, aliases, current_module, prefix)`. -/
def collect_dependencies_from_tree : UseTree → List Str → AliasMap → Str → Str → List Str × AliasMap
  | .path ident sub, deps, aliases, current_module, pre =>
    if ident = superKw then
      collect_dependencies_from_tree sub deps aliases current_module (superModule current_module)
    else if ident = crateKw then
      collect_dependencies_from_tree sub deps aliases current_module (firstSegment current_module)
    else
      collect_dependencies_from_tree sub deps aliases current_module
        (if pre = [] then ident else pre ++ sep ++ ident)
  | .group items, deps, aliases, current_module, pre =>
    collect_use_forest items deps aliases current_module pre
  | .name ident, deps, aliases, _, pre =>
    (deps ++ [pre ++ sep ++ ident], aliases.insert ident (pre ++ sep ++ ident))
  | .glob, deps, aliases, _, pre =>
    (deps ++ [pre ++ sep ++ globStar], aliases)
  | .rename ident ren, deps, aliases, _, pre =>
    (deps ++ [pre ++ sep ++ ident], aliases.insert ren (pre ++ sep ++ ident))
/-- The `for item in &group.items` loop of the `Group` arm. -/
def collect_use_forest : UseForest → List Str → AliasMap → Str → Str → List Str × AliasMap
  | .nil, deps, aliases, _, _ => (deps, aliases)
  | .cons t ts, deps, aliases, current_module, pre =>
    let r := collect_dependencies_from_tree t deps aliases current_module pre
    collect_use_forest ts r.1 r.2 current_module pre
end

/-- A qualified path occurring in reference position (`ExprPath` when
`typePos = false`, `TypePath` when `typePos = true`). -/
structure PathRef where
  segments : List Str
  typePos : Bool
  deriving DecidableEq

mutual
/-- A file item, restricted to the shapes the extractor distinguishes:
`use` declarations, inline modules (with content), module declarations
without content, and any other item carrying qualified path references
(in syntax-tree visit order). -/
inductive RItem where
  | use : UseTree → RItem
  | modInline : Str → RItems → RItem
  | modDecl : Str → RItem
  | refs : List PathRef → RItem
inductive RItems where
  | nil : RItems
  | cons : RItem → RItems → RItems
end

/-- The `for item in items` loop inside `parse_inline_module`, with the
`module_path` of the enclosing inline module already computed; a nested
inline module recurses with `module_path :: ident`. -/
def parse_inline_module_loop : RItems → List Str → AliasMap → Str → List Str × AliasMap
  | .nil, deps, aliases, _ => (deps, aliases)
  | .cons (.use tree) rest, deps, aliases, module_path =>
    let r := collect_dependencies_from_tree tree deps aliases module_path []
    parse_inline_module_loop rest r.1 r.2 module_path
  | .cons (.modInline ident content) rest, deps, aliases, module_path =>
    let r := parse_inline_module_loop content deps aliases (module_path ++ sep ++ ident)
    parse_inline_module_loop rest r.1 r.2 module_path
  | .cons (.modDecl _) rest, deps, aliases, module_path =>
    parse_inline_module_loop rest deps aliases module_path
  | .cons (.refs _) rest, deps, aliases, module_path =>
    parse_inline_module_loop rest deps aliases module_path

/-- Embeds `parse_inline_module(mod_item, dependencies, aliases, current_module)`. -/
def parse_inline_module (ident : Str) (content : RItems) (deps : List Str)
    (aliases : AliasMap) (current_module : Str) : List Str × AliasMap :=
  parse_inline_module_loop content deps aliases (current_module ++ sep ++ ident)

/-- The `for item in &file.ast.items` loop of `get_dependencies_in_file`
(declaration scan). -/
def top_level_scan : RItems → List Str → AliasMap → Str → List Str × AliasMap
  | .nil, deps, aliases, _ => (deps, aliases)
  | .cons (.use tree) rest, deps, aliases, logical_path =>
    let r := collect_dependencies_from_tree tree deps aliases logical_path []
    top_level_scan rest r.1 r.2 logical_path
  | .cons (.modInline ident content) rest, deps, aliases, logical_path =>
    let r := parse_inline_module ident content deps aliases logical_path
    top_level_scan rest r.1 r.2 logical_path
  | .cons (.modDecl _) rest, deps, aliases, logical_path =>
    top_level_scan rest deps aliases logical_path
  | .cons (.refs _) rest, deps, aliases, logical_path =>
    top_level_scan rest deps aliases logical_path

mutual
/-- The qualified paths met by `visit::visit_file` (the `DependencyVisitor`
walk), in visit order; it descends into inline modules. -/
def visit_items : RItems → List PathRef
  | .nil => []
  | .cons i rest => visit_item i ++ visit_items rest
def visit_item : RItem → List PathRef
  | .use _ => []
  | .modInline _ content => visit_items content
  | .modDecl _ => []
  | .refs ps => ps
end

/-- Embeds `path_to_string`. -/
def path_to_string (segments : List Str) : Str := joinSep segments

/-- Embeds `resolve_super_path(path, current_module)`. -/
def resolve_super_path (segments : List Str) (current_module : Str) : Str :=
  let parent := superModule current_module
  let rest := joinSep (segments.drop 1)
  if rest = [] then parent else parent ++ sep ++ rest

/-- Embeds `rejoin_alias_with_rest(alias_full, path)`. -/
def rejoin_alias_with_rest (alias_full : Str) (segments : List Str) : Str :=
  let rest := joinSep (segments.drop 1)
  if rest = [] then alias_full else alias_full ++ sep ++ rest

/-- One visitor step: `visit_expr_path` (`typePos = false`) or
`visit_type_path` (`typePos = true`), returning the dependencies pushed. -/
def visit_path (aliases : AliasMap) (current_module : Str) : PathRef → List Str
  | ⟨[], _⟩ => []
  | ⟨first :: rest, typePos⟩ =>
    if typePos && (first :: rest).length == 1 then []
    else if first = crateKw then [path_to_string (first :: rest)]
    else if first = superKw then [resolve_super_path (first :: rest) current_module]
    else
      match aliases first with
      | some full => [rejoin_alias_with_rest full (first :: rest)]
      | none => if typePos then [path_to_string (first :: rest)] else []

/-- Embeds `get_dependencies_in_file`: declaration scan, then reference scan with
the final alias table, then first-occurrence deduplication. -/
def get_dependencies_in_file (logical_path : Str) (items : RItems) : List Str :=
  let r := top_level_scan items [] emptyAliases logical_path
  let refDeps := (visit_items items).foldl (fun acc p => acc ++ visit_path r.2 logical_path p) []
  dedupFirst [] (r.1 ++ refDeps)

/-- Embeds `RustFile` (`src/rust_file.rs`), with the syntax tree in the reduced
`RItems` shape. -/
structure RustFile where
  path : Str
  module_name : Str
  crate_name : Str
  logical_path : Str
  dependencies : List Str
  ast : RItems

/-- Embeds `RustFile::from_ast`. -/
def RustFile.from_ast (path logical_path : Str) (ast : RItems) : RustFile :=
  { path := path
    module_name := (splitOnSep logical_path).getLastD []
    crate_name := firstSegment logical_path
    logical_path := logical_path
    dependencies := get_dependencies_in_file logical_path ast
    ast := ast }

/-! ### Module rules (`src/rules/may_depend_on.rs`, `src/rules/must_not_depend_on.rs`)

Violation messages carry ANSI styling; the `Except` error payload models
their content as the forbidden-dependency list together with the file path. -/

structure MayDependOnRule where
  subject : Str
  allowed_dependencies : List Str

/-- Embeds `MayDependOnRule::apply`. -/
def MayDependOnRule.apply (r : MayDependOnRule) (file : RustFile) :
    Except (List Str × Str) Unit :=
  let forbidden_dependencies := file.dependencies.filter fun dependency =>
    !RulesUtils.is_child_of dependency r.subject &&
    !r.allowed_dependencies.any (fun ad => RulesUtils.is_child_of dependency ad)
  if forbidden_dependencies = [] then .ok () else .error (forbidden_dependencies, file.path)

/-- Embeds `MayDependOnRule::is_applicable`. -/
def MayDependOnRule.is_applicable (r : MayDependOnRule) (file : RustFile) : Bool :=
  RulesUtils.is_child_of file.logical_path r.subject

structure MustNotDependOnRule where
  subject : Str
  forbidden_dependencies : List Str

/-- Embeds `MustNotDependOnRule::apply`. -/
def MustNotDependOnRule.apply (r : MustNotDependOnRule) (file : RustFile) :
    Except (List Str × Str) Unit :=
  let forbidden_dependencies := file.dependencies.filter fun dependency =>
    r.forbidden_dependencies.any fun ad => RulesUtils.is_child_of dependency ad
  if forbidden_dependencies = [] then .ok () else .error (forbidden_dependencies, file.path)

/-- Embeds `MustNotDependOnRule::is_applicable`. -/
def MustNotDependOnRule.is_applicable (r : MustNotDependOnRule) (file : RustFile) : Bool :=
  RulesUtils.is_child_of file.logical_path r.subject

/-! ### Logical-path resolution (`src/rust_file.rs`, `parse_module_logical_path`)

The function first resolves the crate root and `package.name` on the
filesystem; the embedding takes that resolved `crate_name` and the
components of the file path relative to the crate root, and models the
pure remainder (the `let mut comps = ...` tail). -/

def srcSeg : Str := "src".toList

/-- The `while let Some(c) = comps.next() { if c == "src" { break } }` skip. -/
def dropThroughFirst (x : Str) : List Str → List Str
  | [] => []
  | c :: rest => if c = x then rest else dropThroughFirst x rest

/-- Removes every leading reversed `".rs"` from a reversed string. -/
def stripRevRs : Str → Str
  | 's' :: 'r' :: '.' :: rest => stripRevRs rest
  | s => s

/-- Rust `str::ends_with(".rs")`. -/
def ends_with_rs (s : Str) : Bool :=
  match s.reverse with
  | 's' :: 'r' :: '.' :: _ => true
  | _ => false

/-- Rust `str::trim_end_matches(".rs")` (removes all trailing repetitions). -/
def trim_end_matches_rs (s : Str) : Str :=
  (stripRevRs s.reverse).reverse

/-- The `if let Some(last) = parts.last_mut()` extension strip. -/
def stripRsLast : List Str → List Str
  | [] => []
  | [last] => [if ends_with_rs last then trim_end_matches_rs last else last]
  | x :: y :: rest => x :: stripRsLast (y :: rest)

/-- Embeds `parse_module_logical_path`, from the point where `crate_name` and the
crate-root-relative components are known. -/
def parse_module_logical_path (crate_name : Str) (comps : List Str) : Except Str Str :=
  let comps2 := if comps.any (fun c => c = srcSeg) then dropThroughFirst srcSeg comps else comps
  let parts := stripRsLast comps2
  if parts = [] then .error "Failed to determine module path".toList
  else .ok (crate_name ++ sep ++ joinSep parts)

/-! ### The outer wrapper (`src/dsl/arkitect.rs`) -/

structure Arkitect where
  project_root : Str
  baseline : Nat

/-- Embeds `Arkitect::ensure_that`. -/
def Arkitect.ensure_that (project_root : Str) : Arkitect :=
  { project_root := project_root, baseline := 0 }

/-- Embeds `Arkitect::with_baseline`. -/
def Arkitect.with_baseline (a : Arkitect) (baseline : Nat) : Arkitect :=
  { a with baseline := baseline }

/-- Embeds `Arkitect::complies_with`; the engine run (`Engine::compute_violations`,
filesystem-bound) is abstracted as the violation list it produces. -/
def Arkitect.complies_with (a : Arkitect) (violations : List Str) :
    Except (List Str) (List Str) :=
  if violations.length ≤ a.baseline then .ok violations else .error violations

/-! ### Cycle detection (`src/rules/must_not_have_circular_dependencies.rs`)

`HashMap<String, Vec<String>>` is modelled as an association list with
unique keys, iterated in list order.  The recursive `strongconnect` is
embedded with a fuel parameter (`none` = fuel exhausted); `tarjan_scc`
supplies fuel `n + 1`, which bounds the recursion depth (each nested call
first indexes a previously unindexed node). -/

abbrev Graph := List (Str × List Str)

/-- Embeds `unify_submodules(node, max_depth)`. -/
def unify_submodules (node : Str) (max_depth : Nat) : Str :=
  let parts := splitOnSep node
  if parts.length ≤ max_depth then node else joinSep (parts.take max_depth)

/-- Embeds `new_graph.entry(k).or_insert_with(Vec::new).extend(vs)`. -/
def extendEntry (g : Graph) (k : Str) (vs : List Str) : Graph :=
  if g.any (fun p => p.1 = k) then
    g.map (fun p => if p.1 = k then (p.1, p.2 ++ vs) else p)
  else g ++ [(k, vs)]

/-- Embeds `new_graph.entry(k).or_insert_with(Vec::new)` (key only). -/
def addEmptyKey (g : Graph) (k : Str) : Graph :=
  if g.any (fun p => p.1 = k) then g else g ++ [(k, [])]

/-- Rust `Vec::<String>::sort` (insertion sort realises the same sorted
permutation). -/
def sortStrings (l : List Str) : List Str :=
  l.insertionSort (fun a b => strLe a b = true)

/-- Embeds `unify_submodules_in_graph(original_graph, max_depth)`. -/
def unify_submodules_in_graph (original_graph : Graph) (max_depth : Nat) : Graph :=
  let g1 := original_graph.foldl (fun acc p =>
    extendEntry acc (unify_submodules p.1 max_depth)
      (p.2.map (fun d => unify_submodules d max_depth))) []
  let all_deps := (g1.map Prod.snd).flatten
  let g2 := all_deps.foldl addEmptyKey g1
  g2.map (fun p => (p.1, dedupAdjacent (sortStrings p.2)))

def graphKeys (g : Graph) : List Str := g.map Prod.fst

/-- First index of `x` in a list (`node_index.get`). -/
def idxOf? (x : Str) : List Str → Option Nat
  | [] => none
  | y :: ys => if y = x then some 0 else (idxOf? x ys).map (· + 1)

/-- Embeds `build_adjacency_list(graph, node_index)`. -/
def build_adjacency_list (g : Graph) (nodes : List Str) : List (List Nat) :=
  g.foldl (fun acc p =>
    match idxOf? p.1 nodes with
    | some i => acc.set i ((acc.getD i []) ++ p.2.filterMap (fun d => idxOf? d nodes))
    | none => acc)
    (List.replicate nodes.length [])

structure TarjanState where
  index : Int
  /-- The Tarjan stack, top first (`push` = cons). -/
  stack : List Nat
  in_stack : List Bool
  indices : List Int
  lowlink : List Int
  sccs : List (List Nat)

/-- The `loop { let w = stack.pop() ... if w == v { break } }` of
`strongconnect`: returns the popped SCC, the remaining stack and the
updated `in_stack`. -/
def popLoop (v : Nat) : List Nat → List Bool → List Nat × List Nat × List Bool
  | [], in_stack => ([], [], in_stack)
  | w :: rest, in_stack =>
    let in_stack := in_stack.set w false
    if w = v then ([w], rest, in_stack)
    else
      let r := popLoop v rest in_stack
      (w :: r.1, r.2.1, r.2.2)

/-- The body of the `for &w in &adjacency_list[v]` loop of `strongconnect`;
`recur` is the recursive `strongconnect` call (with its fuel already
applied). -/
def tarjan_step (recur : Nat → TarjanState → Option TarjanState) (v : Nat) :
    Option TarjanState → Nat → Option TarjanState :=
  fun acc w =>
    match acc with
    | none => none
    | some s =>
      if s.indices.getD w (-1) = -1 then
        match recur w s with
        | none => none
        | some s2 =>
          some { s2 with
                 lowlink := s2.lowlink.set v
                   (min (s2.lowlink.getD v (-1)) (s2.lowlink.getD w (-1))) }
      else if s.in_stack.getD w false then
        some { s with
               lowlink := s.lowlink.set v
                 (min (s.lowlink.getD v (-1)) (s.indices.getD w (-1))) }
      else some s

/-- Embeds `strongconnect` with explicit fuel. -/
def strongconnectF (adj : List (List Nat)) : Nat → Nat → TarjanState → Option TarjanState
  | 0, _, _ => none
  | fuel+1, v, st =>
    let idx := st.index + 1
    let st1 : TarjanState :=
      { st with
        index := idx,
        indices := st.indices.set v idx,
        lowlink := st.lowlink.set v idx,
        stack := v :: st.stack,
        in_stack := st.in_stack.set v true }
    let after := (adj.getD v []).foldl
      (tarjan_step (fun w s => strongconnectF adj fuel w s) v) (some st1)
    match after with
    | none => none
    | some s =>
      if s.lowlink.getD v (-1) = s.indices.getD v (-1) then
        let r := popLoop v s.stack s.in_stack
        some { s with
               stack := r.2.1,
               in_stack := r.2.2,
               sccs := s.sccs ++ [r.1] }
      else some s

/-- The body of the `for v in 0..n` loop of `tarjan_scc`. -/
def tarjan_loop_step (adj : List (List Nat)) (n : Nat) :
    Option TarjanState → Nat → Option TarjanState :=
  fun acc v =>
    match acc with
    | none => none
    | some s =>
      if s.indices.getD v (-1) = -1 then strongconnectF adj (n+1) v s else some s

/-- Embeds `tarjan_scc(adjacency_list)`. -/
def tarjan_scc (adj : List (List Nat)) : Option (List (List Nat)) :=
  let n := adj.length
  let init : TarjanState :=
    ⟨0, [], List.replicate n false, List.replicate n (-1), List.replicate n (-1), []⟩
  let final := (List.range n).foldl (tarjan_loop_step adj n) (some init)
  final.map TarjanState.sccs

def arrow : Str := " -> ".toList

def joinArrow : List Str → Str
  | [] => []
  | [x] => x
  | x :: y :: rest => x ++ arrow ++ joinArrow (y :: rest)

/-- Embeds `translate_cycle_to_names(path, nodes)`. -/
def translate_cycle_to_names (path : List Nat) (nodes : List Str) : Str :=
  match path with
  | [] => []
  | p0 :: _ => joinArrow ((path.map fun ix => nodes.getD ix []) ++ [nodes.getD p0 []])

/-- Embeds `dfs_cycle_reconstruct`, with fuel; the state is
(found cycle, path, visited). -/
def dfs_cycle_reconstruct (adj : List (List Nat)) (sccSet : List Nat) (start : Nat)
    (nodes : List Str) : Nat → Nat → List Nat → List Nat → Option Str × List Nat × List Nat
  | 0, _, path, visited => (none, path, visited)
  | fuel+1, current, path, visited =>
    let visited := current :: visited
    let path := path ++ [current]
    let r := (adj.getD current []).foldl
      (fun (st : Option Str × List Nat × List Nat) next =>
        match st.1 with
        | some _ => st
        | none =>
          if next ∉ sccSet then st
          else if next = start ∧ st.2.1.length > 1 then
            (some (translate_cycle_to_names st.2.1 nodes), st.2.1, st.2.2)
          else if next ∈ st.2.2 then st
          else dfs_cycle_reconstruct adj sccSet start nodes fuel next st.2.1 st.2.2)
      (none, path, visited)
    match r.1 with
    | some _ => r
    | none => (none, r.2.1.dropLast, r.2.2)

/-- Embeds `reconstruct_cycle_path(scc, nodes, adjacency_list)`. -/
def reconstruct_cycle_path (adj : List (List Nat)) (nodes : List Str) (scc : List Nat) :
    Str :=
  let general : Str :=
    match scc with
    | [] => []
    | start :: _ =>
      match (dfs_cycle_reconstruct adj scc start nodes (adj.length + 1) start [] []).1 with
      | some cycle => cycle
      | none => []
  match scc with
  | [v] =>
    if (adj.getD v []).contains v then
      if (adj.getD v []).length = 1 then []
      else nodes.getD v [] ++ arrow ++ nodes.getD v []
    else general
  | _ => general

/-- The body of the `for scc in sccs` loop of
`find_all_cycles_in_dependencies`: the cycles contributed by one SCC. -/
def process_scc (adj : List (List Nat)) (nodes : List Str) (scc : List Nat) : List Str :=
  if scc.length > 1 then [reconstruct_cycle_path adj nodes scc]
  else
    match scc with
    | [only_node] =>
      if (adj.getD only_node []).contains only_node then
        if (adj.getD only_node []).length > 1 then
          [nodes.getD only_node [] ++ arrow ++ nodes.getD only_node []]
        else []
      else []
    | _ => []

/-- The `nodes` of `find_all_cycles_in_dependencies`: the sorted keys of
the truncated graph. -/
def nodes_of (graph : Graph) (max_depth : Nat) : List Str :=
  sortStrings (graphKeys (unify_submodules_in_graph graph max_depth))

/-- The `adjacency_list` of `find_all_cycles_in_dependencies`. -/
def adjacency_of (graph : Graph) (max_depth : Nat) : List (List Nat) :=
  build_adjacency_list (unify_submodules_in_graph graph max_depth) (nodes_of graph max_depth)

/-- Embeds `find_all_cycles_in_dependencies(graph, max_depth)` (`none` = fuel
exhausted inside Tarjan, which does not occur). -/
def find_all_cycles_in_dependencies (graph : Graph) (max_depth : Nat) :
    Option (List Str) :=
  match tarjan_scc (adjacency_of graph max_depth) with
  | none => none
  | some sccs =>
    some (sccs.foldl (fun cycles scc =>
      cycles ++ process_scc (adjacency_of graph max_depth) (nodes_of graph max_depth) scc) [])

/-- The file of the C9 overwrite scenario: a top-level
`use liba::t1 as al;`, an inline module declaring `use libb::t2 as al;`,
and, outside that module, an expression path `al::f`. -/
def c9_example_items : RItems :=
  .cons (.use (.path "liba".toList (.rename "t1".toList "al".toList)))
  (.cons (.modInline "inner".toList
    (.cons (.use (.path "libb".toList (.rename "t2".toList "al".toList))) .nil))
  (.cons (.refs [⟨["al".toList, "f".toList], false⟩]) .nil))

/-! ### Acyclicity predicates and Tarjan invariants -/

/-- The edge relation of an adjacency list. -/
def adj_edge (adj : List (List Nat)) (i j : Nat) : Prop :=
  j ∈ adj.getD i []

/-- The edge relation of a dependency graph. -/
def graph_edge (g : Graph) (a b : Str) : Prop :=
  ∃ kv ∈ g, kv.1 = a ∧ b ∈ kv.2

/-- A graph is acyclic when no node reaches itself by a non-empty path. -/
def graph_acyclic (g : Graph) : Prop :=
  ∀ a, ¬ Relation.TransGen (graph_edge g) a a

/-- The number of nodes Tarjan has not indexed yet. -/
def tarjan_unindexed (adj : List (List Nat)) (st : TarjanState) : Nat :=
  ((List.range adj.length).filter fun u => st.indices.getD u (-1) == -1).length

/-- The state invariant of the embedded `strongconnect`. -/
structure TarjanInv (adj : List (List Nat)) (st : TarjanState) : Prop where
  len_indices : st.indices.length = adj.length
  len_lowlink : st.lowlink.length = adj.length
  len_in_stack : st.in_stack.length = adj.length
  stack_iff : ∀ u, u ∈ st.stack ↔ u < adj.length ∧ st.in_stack.getD u false = true
  stack_indexed : ∀ u ∈ st.stack, st.indices.getD u (-1) ≠ -1
  index_nonneg : 0 ≤ st.index

/-- What one completed `strongconnect(v)` call guarantees on an acyclic
graph: the stack is restored, `v` keeps `lowlink = index`, previously
indexed nodes are untouched, and only singleton SCCs were emitted. -/
structure SCResult (adj : List (List Nat)) (st st' : TarjanState) (v : Nat) : Prop where
  inv : TarjanInv adj st'
  stack_eq : st'.stack = st.stack
  in_stack_eq : ∀ u, st'.in_stack.getD u false = st.in_stack.getD u false
  old_indices : ∀ u, st.indices.getD u (-1) ≠ -1 →
    st'.indices.getD u (-1) = st.indices.getD u (-1)
  old_lowlink : ∀ u, st.indices.getD u (-1) ≠ -1 →
    st'.lowlink.getD u (-1) = st.lowlink.getD u (-1)
  v_indices : st'.indices.getD v (-1) = st.index + 1
  v_lowlink : st'.lowlink.getD v (-1) = st.index + 1
  index_le : st.index + 1 ≤ st'.index
  new_indices : ∀ u, st'.indices.getD u (-1) ≠ -1 →
    st.indices.getD u (-1) ≠ -1
    ∨ (st.index + 1 ≤ st'.indices.getD u (-1) ∧ st'.indices.getD u (-1) ≤ st'.index)
  sccs_ext : ∃ L, st'.sccs = st.sccs ++ L ∧ ∀ x ∈ L, ∃ u, x = [u]
  unindexed_lt : tarjan_unindexed adj st' < tarjan_unindexed adj st

/-- The invariant maintained while `strongconnect(v)` folds over the
neighbours of `v` (relative to the state `st` at call entry). -/
structure MidInv (adj : List (List Nat)) (st : TarjanState) (v : Nat) (s : TarjanState) :
    Prop where
  inv : TarjanInv adj s
  stack_eq : s.stack = v :: st.stack
  in_stack_old : ∀ u, u ≠ v → s.in_stack.getD u false = st.in_stack.getD u false
  in_stack_v : s.in_stack.getD v false = true
  indices_v : s.indices.getD v (-1) = st.index + 1
  lowlink_v : s.lowlink.getD v (-1) = st.index + 1
  index_ge : st.index + 1 ≤ s.index
  old_indices : ∀ u, st.indices.getD u (-1) ≠ -1 →
    s.indices.getD u (-1) = st.indices.getD u (-1)
  old_lowlink : ∀ u, st.indices.getD u (-1) ≠ -1 →
    s.lowlink.getD u (-1) = st.lowlink.getD u (-1)
  new_indices : ∀ u, s.indices.getD u (-1) ≠ -1 →
    st.indices.getD u (-1) ≠ -1
    ∨ (st.index + 1 ≤ s.indices.getD u (-1) ∧ s.indices.getD u (-1) ≤ s.index)
  sccs_ext : ∃ L, s.sccs = st.sccs ++ L ∧ ∀ x ∈ L, ∃ u, x = [u]
  unindexed_lt : tarjan_unindexed adj s < tarjan_unindexed adj st

/-! ### Basic lemmas -/

theorem starts_with_iff (s p : Str) : starts_with s p = true ↔ p <+: s := by
  induction p generalizing s with
  | nil => simp [starts_with]
  | cons x xs ih =>
    cases s with
    | nil => simp [starts_with]
    | cons c cs =>
      simp only [starts_with, Bool.and_eq_true, beq_iff_eq, List.cons_prefix_cons, ih]
      tauto

theorem strLe_antisymm {a b : Str} (h1 : strLe a b = true) (h2 : strLe b a = true) :
    a = b := by
  induction a generalizing b with
  | nil =>
    cases b with
    | nil => rfl
    | cons y ys => simp [strLe] at h2
  | cons x xs ih =>
    cases b with
    | nil => simp [strLe] at h1
    | cons y ys =>
      rcases lt_trichotomy x y with h | h | h
      · simp [strLe, h, asymm h] at h2
      · subst h
        simp only [strLe, lt_irrefl, if_false] at h1 h2
        exact congrArg (x :: ·) (ih h1 h2)
      · simp [strLe, h, asymm h] at h1

theorem mem_dedupFirst {x : Str} : ∀ (seen l : List Str),
    x ∈ dedupFirst seen l ↔ x ∈ l ∧ x ∉ seen := by
  intro seen l
  induction l generalizing seen with
  | nil => simp [dedupFirst]
  | cons y ys ih =>
    rw [dedupFirst]
    by_cases hy : y ∈ seen
    · rw [if_pos hy, ih]
      constructor
      · rintro ⟨hx, hns⟩
        exact ⟨List.mem_cons_of_mem _ hx, hns⟩
      · rintro ⟨hx, hns⟩
        rcases List.mem_cons.mp hx with rfl | hx
        · exact absurd hy hns
        · exact ⟨hx, hns⟩
    · rw [if_neg hy]
      constructor
      · intro hmem
        rcases List.mem_cons.mp hmem with rfl | hmem
        · exact ⟨List.mem_cons_self _ _, hy⟩
        · obtain ⟨hx, hns⟩ := (ih _).mp hmem
          exact ⟨List.mem_cons_of_mem _ hx,
            fun hseen => hns (List.mem_cons_of_mem _ hseen)⟩
      · rintro ⟨hx, hns⟩
        rcases List.mem_cons.mp hx with rfl | hx
        · exact List.mem_cons_self _ _
        · by_cases hxy : x = y
          · subst hxy; exact List.mem_cons_self _ _
          · exact List.mem_cons_of_mem _ ((ih _).mpr ⟨hx,
              fun h => (List.mem_cons.mp h).elim hxy hns⟩)

theorem dedupFirst_nodup : ∀ (seen l : List Str), (dedupFirst seen l).Nodup := by
  intro seen l
  induction l generalizing seen with
  | nil => simp [dedupFirst]
  | cons y ys ih =>
    by_cases hy : y ∈ seen
    · rw [dedupFirst, if_pos hy]
      exact ih _
    · rw [dedupFirst, if_neg hy, List.nodup_cons]
      exact ⟨fun hmem => ((mem_dedupFirst _ _).mp hmem).2 (List.mem_cons_self _ _), ih _⟩

/-! ### Claim C1 -/

/-- C1 counterexample: under the `src/rules/utils.rs` implementation of
`is_child_of` (a plain `starts_with`), the path `foo_bar::x` is treated as
a child of `foo`, although it is not a descendant of `foo` in the spec's
sense; so the claimed equivalence fails for that implementation. -/
theorem c1_counterexample :
    RulesUtils.is_child_of ("foo_bar::x".toList) ("foo".toList) = true
    ∧ spec_descendant ("foo_bar::x".toList) ("foo".toList) = false := by
  decide

/-- C1 (amended): the `builtin_rules` implementation of `is_child_of`
realises the spec's descendant relation (for a non-empty second argument;
an empty one panics), while the `rules` implementation used by
`MayDependOnRule` and `MustNotDependOnRule` is a plain string-prefix
test. -/
theorem c1_descendant_test :
    (∀ a b : Str, b ≠ [] →
      (BuiltinRulesUtils.is_child_of a b = some true ↔ a = b ∨ (b ++ sep) <+: a))
    ∧ (∀ a b : Str, RulesUtils.is_child_of a b = true ↔ b <+: a) := by
  constructor
  · intro a b hb
    rw [BuiltinRulesUtils.is_child_of, if_neg hb]
    simp [starts_with_iff]
  · intro a b
    exact starts_with_iff a b

/-- C1 witness: the amended theorem applied at `a = "a::b"`, `b = "a"`. -/
theorem c1_descendant_test_witness :
    BuiltinRulesUtils.is_child_of ("a::b".toList) ("a".toList) = some true :=
  (c1_descendant_test.1 ("a::b".toList) ("a".toList) (by decide)).mpr
    (Or.inr ((starts_with_iff _ _).mp (by decide)))

/-! ### Claim C2 -/

/-- C2 counterexample: for a file with logical path `crate::module` whose
only item is `use crate::module::*;`, extraction returns
`["crate::module::*"]`, which is a descendant of the file's own logical
path — self-references are not pruned. -/
theorem c2_counterexample :
    get_dependencies_in_file "crate::module".toList
      (.cons (.use (.path "crate".toList (.path "module".toList .glob))) .nil)
      = ["crate::module::*".toList]
    ∧ spec_descendant "crate::module::*".toList "crate::module".toList = true := by
  decide

/-- C2 (amended): extraction deduplicates the dependency list (keeping the
first occurrence), but performs no pruning of self-references; the list
may contain the file's own logical path and its descendants. -/
theorem c2_dependencies_nodup :
    ∀ (logical_path : Str) (items : RItems),
      (get_dependencies_in_file logical_path items).Nodup := by
  intro logical_path items
  exact dedupFirst_nodup [] _

/-! ### Claim C3 -/

/-- C3 counterexample: a `MayDependOnRule` with subject `a` and allowed set
`{a::x}`, applied to a file whose logical path `a::x` is a descendant of
the allowed entry `a::x`: the rule is still applicable, and `apply` still
produces a violation. -/
theorem c3_counterexample :
    ("a::x".toList ∈ (MayDependOnRule.mk "a".toList ["a::x".toList]).allowed_dependencies
      ∧ spec_descendant "a::x".toList "a::x".toList = true)
    ∧ (MayDependOnRule.mk "a".toList ["a::x".toList]).is_applicable
        (RustFile.mk "f.rs".toList "x".toList "a".toList "a::x".toList
          ["other::y".toList] .nil) = true
    ∧ (MayDependOnRule.mk "a".toList ["a::x".toList]).apply
        (RustFile.mk "f.rs".toList "x".toList "a".toList "a::x".toList
          ["other::y".toList] .nil)
      = .error (["other::y".toList], "f.rs".toList) :=
  ⟨by decide, rfl, rfl⟩

/-- C3 (amended): `MayDependOnRule::is_applicable` consults only the
subject — it holds iff the subject is a string prefix of the file's
logical path — and `apply` returns `Ok` iff every dependency is a
(string-prefix) child of the subject or of some allowed entry.  Membership
of the file's logical path in the allowed set plays no role. -/
theorem c3_applicability :
    ∀ (r : MayDependOnRule) (f : RustFile),
      (r.is_applicable f = true ↔ r.subject <+: f.logical_path)
      ∧ (r.apply f = .ok () ↔ ∀ d ∈ f.dependencies,
          RulesUtils.is_child_of d r.subject = true
          ∨ ∃ a ∈ r.allowed_dependencies, RulesUtils.is_child_of d a = true) := by
  intro r f
  refine ⟨starts_with_iff _ _, ?_⟩
  have hpred : ∀ d : Str,
      ((!RulesUtils.is_child_of d r.subject &&
        !r.allowed_dependencies.any fun ad => RulesUtils.is_child_of d ad) = true)
      ↔ ¬(RulesUtils.is_child_of d r.subject = true
          ∨ ∃ a ∈ r.allowed_dependencies, RulesUtils.is_child_of d a = true) := by
    intro d
    simp only [Bool.and_eq_true, Bool.not_eq_true', List.any_eq_false, not_or]
    constructor
    · rintro ⟨h1, h2⟩
      refine ⟨by simp [h1], ?_⟩
      rintro ⟨a, ha, hv⟩
      exact h2 a ha hv
    · rintro ⟨h1, h2⟩
      refine ⟨?_, ?_⟩
      · cases hx : RulesUtils.is_child_of d r.subject
        · rfl
        · exact absurd hx h1
      · intro a ha hv
        exact h2 ⟨a, ha, hv⟩
  by_cases hnil : (f.dependencies.filter fun dependency =>
      !RulesUtils.is_child_of dependency r.subject &&
      !r.allowed_dependencies.any fun ad => RulesUtils.is_child_of dependency ad) = []
  · have hok : r.apply f = .ok () := by
      simp only [MayDependOnRule.apply]
      rw [if_pos hnil]
    rw [hok]
    refine iff_of_true rfl ?_
    intro d hd
    by_contra hcon
    exact List.filter_eq_nil_iff.mp hnil d hd ((hpred d).mpr hcon)
  · have herr : r.apply f ≠ .ok () := by
      simp only [MayDependOnRule.apply]
      rw [if_neg hnil]
      exact fun h => Except.noConfusion h
    refine iff_of_false herr ?_
    intro hall
    apply hnil
    rw [List.filter_eq_nil_iff]
    intro d hd hc
    exact (hpred d).mp hc (hall d hd)

/-! ### Claim C5 -/

theorem stripRsLast_append (xs : List Str) (y : Str) :
    stripRsLast (xs ++ [y])
      = xs ++ [if ends_with_rs y then trim_end_matches_rs y else y] := by
  induction xs with
  | nil => rfl
  | cons x xs ih =>
    cases xs with
    | nil => rfl
    | cons x2 xs2 =>
      rw [List.cons_append]
      rw [show stripRsLast (x :: (x2 :: xs2 ++ [y]))
          = x :: stripRsLast (x2 :: xs2 ++ [y]) from rfl]
      rw [ih]
      rfl

/-- C5 counterexample: for a package `pkg`, resolving `src/lib.rs` yields
`pkg::lib` (not the package name alone) and resolving `src/a/mod.rs`
yields `pkg::a::mod` (the `mod` segment is not dropped). -/
theorem c5_counterexample :
    parse_module_logical_path "pkg".toList ["src".toList, "lib.rs".toList]
      = .ok "pkg::lib".toList
    ∧ parse_module_logical_path "pkg".toList
        ["src".toList, "a".toList, "mod.rs".toList] = .ok "pkg::a::mod".toList
    ∧ "pkg::lib".toList ≠ "pkg".toList
    ∧ "pkg::a::mod".toList ≠ "pkg::a".toList :=
  ⟨rfl, rfl, by decide, by decide⟩

/-- C5 (amended): `parse_module_logical_path` applies no special case for
a final `lib` or `mod` segment: it only strips the `.rs` extension, so a
file `…/lib.rs` resolves to `crate_name::…::lib` and `…/mod.rs` to
`crate_name::…::mod`.  (The `lib`/`mod` special-casing exists only in the
older, unused `parser::get_module`.) -/
theorem c5_no_special_cases :
    ∀ (crate_name : Str) (dirs : List Str), srcSeg ∉ dirs →
      parse_module_logical_path crate_name (dirs ++ ["lib.rs".toList])
        = .ok (crate_name ++ sep ++ joinSep (dirs ++ ["lib".toList]))
      ∧ parse_module_logical_path crate_name (dirs ++ ["mod.rs".toList])
        = .ok (crate_name ++ sep ++ joinSep (dirs ++ ["mod".toList])) := by
  intro crate_name dirs hsrc
  have hany : ∀ y : Str, y ≠ srcSeg →
      ((dirs ++ [y]).any fun c => c = srcSeg) = false := by
    intro y hy
    rw [List.any_eq_false]
    intro c hc
    rcases List.mem_append.mp hc with hc | hc
    · exact fun hd => hsrc (of_decide_eq_true hd ▸ hc)
    · rw [List.mem_singleton.mp hc]
      exact fun hd => hy (of_decide_eq_true hd)
  have main : ∀ (y z : Str), y ≠ srcSeg →
      (if ends_with_rs y then trim_end_matches_rs y else y) = z →
      parse_module_logical_path crate_name (dirs ++ [y])
        = .ok (crate_name ++ sep ++ joinSep (dirs ++ [z])) := by
    intro y z hy hz
    simp only [parse_module_logical_path, hany y hy, Bool.false_eq_true, if_false,
      stripRsLast_append, hz]
    rw [if_neg (by simp)]
  exact ⟨main _ _ (by decide) (by decide), main _ _ (by decide) (by decide)⟩

/-- C5 witness: the amended theorem applied at crate `pkg`, directory
`a`. -/
theorem c5_no_special_cases_witness :
    parse_module_logical_path "pkg".toList ["a".toList, "lib.rs".toList]
      = .ok "pkg::a::lib".toList :=
  (c5_no_special_cases "pkg".toList ["a".toList] (by decide)).1

/-! ### Claim C6 -/

/-- C6: for a file with logical path `pkg::m` whose only item is
`use crate::{a::{self, B}, c::*};`, extraction returns exactly
`["pkg::a::self", "pkg::a::B", "pkg::c::*"]`, in order. -/
theorem c6_group_import :
    get_dependencies_in_file "pkg::m".toList
      (.cons (.use (.path "crate".toList (.group
        (.cons (.path "a".toList (.group (.cons (.name "self".toList)
          (.cons (.name "B".toList) .nil))))
        (.cons (.path "c".toList .glob) .nil)))))
       .nil)
      = ["pkg::a::self".toList, "pkg::a::B".toList, "pkg::c::*".toList] := by
  decide

/-! ### Claim C8 -/

/-- C8: `ensure_that` starts from baseline `0`;
`complies_with` returns `Ok` with the full violation list when its length
is at most the baseline, and `Err` with the full violation list
otherwise. -/
theorem c8_complies_with_baseline :
    ∀ (root : Str) (violations : List Str) (baseline : Nat),
      (Arkitect.ensure_that root).baseline = 0
      ∧ (violations.length ≤ baseline →
          ((Arkitect.ensure_that root).with_baseline baseline).complies_with violations
            = .ok violations)
      ∧ (baseline < violations.length →
          ((Arkitect.ensure_that root).with_baseline baseline).complies_with violations
            = .error violations) := by
  intro root violations baseline
  refine ⟨rfl, fun h => ?_, fun h => ?_⟩
  · simp only [Arkitect.complies_with, Arkitect.with_baseline, Arkitect.ensure_that]
    rw [if_pos h]
  · simp only [Arkitect.complies_with, Arkitect.with_baseline, Arkitect.ensure_that]
    rw [if_neg (Nat.not_le_of_lt h)]

/-- C8 witness: the theorem applied at a one-element violation list with
the default baseline, and at an empty list. -/
theorem c8_complies_with_baseline_witness :
    ((Arkitect.ensure_that []).with_baseline 0).complies_with ["v".toList]
      = .error ["v".toList]
    ∧ ((Arkitect.ensure_that []).with_baseline 0).complies_with [] = .ok [] :=
  ⟨(c8_complies_with_baseline [] ["v".toList] 0).2.2 (by decide),
   (c8_complies_with_baseline [] [] 0).2.1 (by decide)⟩

/-! ### Lemmas on the truncated graph (claims C10, C7, C4) -/

theorem dedupAdjacent_sublist : ∀ l : List Str, List.Sublist (dedupAdjacent l) l := by
  intro l
  induction l with
  | nil => exact List.Sublist.refl _
  | cons x xs ih =>
    cases xs with
    | nil => exact List.Sublist.refl _
    | cons y rest =>
      rw [dedupAdjacent]
      by_cases hxy : x = y
      · rw [if_pos hxy]
        exact ih.cons x
      · rw [if_neg hxy]
        exact ih.cons₂ x

theorem pairwise_dedupAdjacent {R : Str → Str → Prop} {l : List Str}
    (h : l.Pairwise R) : (dedupAdjacent l).Pairwise R :=
  h.sublist (dedupAdjacent_sublist l)

theorem nodup_dedupAdjacent_of_sorted : ∀ l : List Str,
    l.Pairwise (fun a b => strLe a b = true) → (dedupAdjacent l).Nodup := by
  intro l
  induction l with
  | nil => intro _; exact List.nodup_nil
  | cons x xs ih =>
    intro h
    cases xs with
    | nil => simp [dedupAdjacent]
    | cons y rest =>
      have hx := (List.pairwise_cons.mp h).1
      have h' := (List.pairwise_cons.mp h).2
      rw [dedupAdjacent]
      by_cases hxy : x = y
      · rw [if_pos hxy]
        exact ih h'
      · rw [if_neg hxy, List.nodup_cons]
        refine ⟨?_, ih h'⟩
        intro hmem
        have hmem' := (dedupAdjacent_sublist _).subset hmem
        rcases List.mem_cons.mp hmem' with rfl | hrest
        · exact hxy rfl
        · have h1 : strLe x y = true := hx y (List.mem_cons_self _ _)
          have h2 : strLe y x = true := (List.pairwise_cons.mp h').1 x hrest
          exact hxy (strLe_antisymm h1 h2)

theorem sorted_nodup_value (l : List Str) :
    (dedupAdjacent (sortStrings l)).Pairwise (fun a b => strLe a b = true)
    ∧ (dedupAdjacent (sortStrings l)).Nodup := by
  have hs : (sortStrings l).Pairwise (fun a b => strLe a b = true) :=
    List.sorted_insertionSort _ l
  exact ⟨pairwise_dedupAdjacent hs, nodup_dedupAdjacent_of_sorted _ hs⟩

theorem mem_sortStrings {x : Str} {l : List Str} : x ∈ sortStrings l ↔ x ∈ l :=
  (List.perm_insertionSort _ l).mem_iff

theorem graphKeys_extendEntry {g : Graph} {k : Str} {vs : List Str} {x : Str} :
    x ∈ graphKeys (extendEntry g k vs) ↔ x ∈ graphKeys g ∨ x = k := by
  rw [extendEntry]
  by_cases hk : g.any fun p => p.1 = k
  · rw [if_pos hk]
    have hkeys : graphKeys (g.map fun p => if p.1 = k then (p.1, p.2 ++ vs) else p)
        = graphKeys g := by
      rw [graphKeys, graphKeys, List.map_map]
      congr 1
      funext p
      by_cases hp : p.1 = k
      · simp [hp]
      · simp [hp]
    rw [hkeys]
    constructor
    · exact Or.inl
    · rintro (hx | rfl)
      · exact hx
      · obtain ⟨p, hp, hpk⟩ := List.any_eq_true.mp hk
        exact List.mem_map.mpr ⟨p, hp, of_decide_eq_true hpk⟩
  · rw [if_neg hk, graphKeys, List.map_append]
    simp [graphKeys]

theorem value_mem_extendEntry_of_mem {g : Graph} {k x : Str} {vs : List Str}
    (h : ∃ e ∈ g, x ∈ e.2) : ∃ e ∈ extendEntry g k vs, x ∈ e.2 := by
  obtain ⟨e, he, hx⟩ := h
  rw [extendEntry]
  by_cases hk : g.any fun p => p.1 = k
  · rw [if_pos hk]
    refine ⟨if e.1 = k then (e.1, e.2 ++ vs) else e, List.mem_map.mpr ⟨e, he, rfl⟩, ?_⟩
    by_cases hek : e.1 = k
    · rw [if_pos hek]
      exact List.mem_append_left _ hx
    · rw [if_neg hek]
      exact hx
  · rw [if_neg hk]
    exact ⟨e, List.mem_append_left _ he, hx⟩

theorem value_mem_extendEntry_new {g : Graph} {k x : Str} {vs : List Str}
    (h : x ∈ vs) : ∃ e ∈ extendEntry g k vs, x ∈ e.2 := by
  rw [extendEntry]
  by_cases hk : g.any fun p => p.1 = k
  · rw [if_pos hk]
    obtain ⟨p, hp, hpk⟩ := List.any_eq_true.mp hk
    have hpk' : p.1 = k := of_decide_eq_true hpk
    refine ⟨(p.1, p.2 ++ vs), List.mem_map.mpr ⟨p, hp, ?_⟩, List.mem_append_right _ h⟩
    rw [if_pos hpk']
  · rw [if_neg hk]
    exact ⟨(k, vs), List.mem_append_right _ (List.mem_singleton.mpr rfl), h⟩

theorem graphKeys_addEmptyKey {g : Graph} {k x : Str} :
    x ∈ graphKeys (addEmptyKey g k) ↔ x ∈ graphKeys g ∨ x = k := by
  rw [addEmptyKey]
  by_cases hk : g.any fun p => p.1 = k
  · rw [if_pos hk]
    constructor
    · exact Or.inl
    · rintro (hx | rfl)
      · exact hx
      · obtain ⟨p, hp, hpk⟩ := List.any_eq_true.mp hk
        exact List.mem_map.mpr ⟨p, hp, of_decide_eq_true hpk⟩
  · rw [if_neg hk, graphKeys, List.map_append]
    simp [graphKeys]

theorem mem_addEmptyKey_of_mem {g : Graph} {k : Str} {kv : Str × List Str}
    (h : kv ∈ g) : kv ∈ addEmptyKey g k := by
  rw [addEmptyKey]
  by_cases hk : g.any fun p => p.1 = k
  · rw [if_pos hk]; exact h
  · rw [if_neg hk]; exact List.mem_append_left _ h

theorem mem_addEmptyKey_self {g : Graph} {k : Str} (h : k ∉ graphKeys g) :
    (k, ([] : List Str)) ∈ addEmptyKey g k := by
  rw [addEmptyKey, if_neg, List.mem_append]
  · exact Or.inr (List.mem_singleton.mpr rfl)
  · intro hany
    obtain ⟨p, hp, hpk⟩ := List.any_eq_true.mp hany
    exact h (List.mem_map.mpr ⟨p, hp, of_decide_eq_true hpk⟩)

theorem mem_addEmptyKey_elim {g : Graph} {k : Str} {kv : Str × List Str}
    (h : kv ∈ addEmptyKey g k) : kv ∈ g ∨ kv = (k, []) := by
  rw [addEmptyKey] at h
  by_cases hk : g.any fun p => p.1 = k
  · rw [if_pos hk] at h; exact Or.inl h
  · rw [if_neg hk] at h
    rcases List.mem_append.mp h with h | h
    · exact Or.inl h
    · exact Or.inr (List.mem_singleton.mp h)

theorem mem_foldl_addEmptyKey_of_mem {kv : Str × List Str} :
    ∀ (L : List Str) (g : Graph), kv ∈ g → kv ∈ L.foldl addEmptyKey g := by
  intro L
  induction L with
  | nil => intro g h; exact h
  | cons y rest ih =>
    intro g h
    rw [List.foldl_cons]
    exact ih _ (mem_addEmptyKey_of_mem h)

theorem mem_foldl_addEmptyKey_elim {kv : Str × List Str} :
    ∀ (L : List Str) (g : Graph), kv ∈ L.foldl addEmptyKey g → kv ∈ g ∨ kv.2 = [] := by
  intro L
  induction L with
  | nil => intro g h; exact Or.inl h
  | cons y rest ih =>
    intro g h
    rw [List.foldl_cons] at h
    rcases ih _ h with h | h
    · rcases mem_addEmptyKey_elim h with h | h
      · exact Or.inl h
      · exact Or.inr (by rw [h])
    · exact Or.inr h

theorem graphKeys_foldl_addEmptyKey {x : Str} :
    ∀ (L : List Str) (g : Graph),
      x ∈ graphKeys (L.foldl addEmptyKey g) ↔ x ∈ graphKeys g ∨ x ∈ L := by
  intro L
  induction L with
  | nil => intro g; simp
  | cons y rest ih =>
    intro g
    rw [List.foldl_cons, ih, graphKeys_addEmptyKey]
    constructor
    · rintro ((h | rfl) | h)
      · exact Or.inl h
      · exact Or.inr (List.mem_cons_self _ _)
      · exact Or.inr (List.mem_cons_of_mem _ h)
    · rintro (h | h)
      · exact Or.inl (Or.inl h)
      · rcases List.mem_cons.mp h with rfl | h
        · exact Or.inl (Or.inr rfl)
        · exact Or.inr h

theorem foldl_addEmptyKey_new {x : Str} :
    ∀ (L : List Str) (g : Graph), x ∈ L → x ∉ graphKeys g →
      (x, ([] : List Str)) ∈ L.foldl addEmptyKey g := by
  intro L
  induction L with
  | nil => intro g h; exact absurd h (List.not_mem_nil x)
  | cons y rest ih =>
    intro g hx hkeys
    rw [List.foldl_cons]
    by_cases hxy : x = y
    · subst hxy
      exact mem_foldl_addEmptyKey_of_mem _ _ (mem_addEmptyKey_self hkeys)
    · rcases List.mem_cons.mp hx with rfl | hx
      · exact absurd rfl hxy
      · refine ih _ hx ?_
        intro hk
        rcases graphKeys_addEmptyKey.mp hk with hk | hk
        · exact hkeys hk
        · exact hxy hk

theorem value_mem_foldl_extend {md : Nat} {x : Str} :
    ∀ (g acc : Graph), (∃ e ∈ acc, x ∈ e.2) →
      ∃ e ∈ g.foldl (fun acc p => extendEntry acc (unify_submodules p.1 md)
        (p.2.map fun d => unify_submodules d md)) acc, x ∈ e.2 := by
  intro g
  induction g with
  | nil => intro acc h; exact h
  | cons p rest ih =>
    intro acc h
    rw [List.foldl_cons]
    exact ih _ (value_mem_extendEntry_of_mem h)

theorem value_mem_foldl_extend_of_mem {md : Nat} {kv : Str × List Str} {d : Str} :
    ∀ (g acc : Graph), kv ∈ g → d ∈ kv.2 →
      ∃ e ∈ g.foldl (fun acc p => extendEntry acc (unify_submodules p.1 md)
        (p.2.map fun d => unify_submodules d md)) acc, unify_submodules d md ∈ e.2 := by
  intro g
  induction g with
  | nil => intro acc h; exact absurd h (List.not_mem_nil kv)
  | cons p rest ih =>
    intro acc hkv hd
    rw [List.foldl_cons]
    rcases List.mem_cons.mp hkv with rfl | hkv
    · exact value_mem_foldl_extend rest _
        (value_mem_extendEntry_new (List.mem_map.mpr ⟨d, hd, rfl⟩))
    · exact ih _ hkv hd

theorem graphKeys_foldl_extend {md : Nat} {x : Str} :
    ∀ (g acc : Graph),
      x ∈ graphKeys (g.foldl (fun acc p => extendEntry acc (unify_submodules p.1 md)
        (p.2.map fun d => unify_submodules d md)) acc)
      ↔ x ∈ graphKeys acc ∨ ∃ kv ∈ g, x = unify_submodules kv.1 md := by
  intro g
  induction g with
  | nil => intro acc; simp
  | cons p rest ih =>
    intro acc
    rw [List.foldl_cons, ih, graphKeys_extendEntry]
    constructor
    · rintro ((h | rfl) | ⟨kv, hkv, rfl⟩)
      · exact Or.inl h
      · exact Or.inr ⟨p, List.mem_cons_self _ _, rfl⟩
      · exact Or.inr ⟨kv, List.mem_cons_of_mem _ hkv, rfl⟩
    · rintro (h | ⟨kv, hkv, rfl⟩)
      · exact Or.inl (Or.inl h)
      · rcases List.mem_cons.mp hkv with rfl | hkv
        · exact Or.inl (Or.inr rfl)
        · exact Or.inr ⟨kv, hkv, rfl⟩

theorem graphKeys_map_value (g : Graph) (f : List Str → List Str) :
    graphKeys (g.map fun p => (p.1, f p.2)) = graphKeys g := by
  rw [graphKeys, graphKeys, List.map_map]
  congr 1

/-! ### Claim C10 -/

/-- C10: the truncated graph produced by `unify_submodules_in_graph`
(1) is closed: every dependency target in one of its adjacency lists is a
key; (2) has every adjacency list sorted and duplicate-free; (3) has the
truncation of every dependency target of the input graph as a key; and
(4) maps such a target that is not the truncation of any source node to
the empty adjacency list. -/
theorem c10_unify_graph :
    ∀ (g : Graph) (max_depth : Nat),
      (∀ kv ∈ unify_submodules_in_graph g max_depth, ∀ d ∈ kv.2,
        d ∈ graphKeys (unify_submodules_in_graph g max_depth))
      ∧ (∀ kv ∈ unify_submodules_in_graph g max_depth,
          kv.2.Pairwise (fun a b => strLe a b = true) ∧ kv.2.Nodup)
      ∧ (∀ kv ∈ g, ∀ d ∈ kv.2,
          unify_submodules d max_depth ∈ graphKeys (unify_submodules_in_graph g max_depth))
      ∧ (∀ kv ∈ g, ∀ d ∈ kv.2,
          (∀ kv2 ∈ g, unify_submodules kv2.1 max_depth ≠ unify_submodules d max_depth) →
          (unify_submodules d max_depth, []) ∈ unify_submodules_in_graph g max_depth) := by
  intro g md
  have hunfold : unify_submodules_in_graph g md
      = ((((g.foldl (fun acc p => extendEntry acc (unify_submodules p.1 md)
              (p.2.map fun d => unify_submodules d md)) []).map Prod.snd).flatten).foldl
          addEmptyKey (g.foldl (fun acc p => extendEntry acc (unify_submodules p.1 md)
              (p.2.map fun d => unify_submodules d md)) [])).map
        (fun p => (p.1, dedupAdjacent (sortStrings p.2))) := rfl
  set G1 : Graph := g.foldl (fun acc p => extendEntry acc (unify_submodules p.1 md)
    (p.2.map fun d => unify_submodules d md)) [] with hG1
  set AD : List Str := (G1.map Prod.snd).flatten with hAD
  set G2 : Graph := AD.foldl addEmptyKey G1 with hG2
  have hkeysF : graphKeys (unify_submodules_in_graph g md) = graphKeys G2 := by
    rw [hunfold]
    exact graphKeys_map_value G2 (fun l => dedupAdjacent (sortStrings l))
  have hADmem : ∀ x ∈ AD, x ∈ graphKeys G2 := by
    intro x hx
    exact (graphKeys_foldl_addEmptyKey AD G1).mpr (Or.inr hx)
  have hG1AD : ∀ {x : Str}, (∃ e ∈ G1, x ∈ e.2) → x ∈ AD := by
    intro x ⟨e, he, hx⟩
    exact List.mem_flatten.mpr ⟨e.2, List.mem_map.mpr ⟨e, he, rfl⟩, hx⟩
  refine ⟨?_, ?_, ?_, ?_⟩
  · intro kv hkv d hd
    rw [hunfold] at hkv
    obtain ⟨p, hp, rfl⟩ := List.mem_map.mp hkv
    have hd2 : d ∈ p.2 :=
      mem_sortStrings.mp ((dedupAdjacent_sublist _).subset hd)
    rcases mem_foldl_addEmptyKey_elim AD G1 hp with hp1 | hp2
    · rw [hkeysF]
      exact hADmem d (hG1AD ⟨p, hp1, hd2⟩)
    · rw [hp2] at hd2
      exact absurd hd2 (List.not_mem_nil d)
  · intro kv hkv
    rw [hunfold] at hkv
    obtain ⟨p, hp, rfl⟩ := List.mem_map.mp hkv
    exact sorted_nodup_value p.2
  · intro kv hkv d hd
    obtain ⟨e, he, hmem⟩ := value_mem_foldl_extend_of_mem g [] hkv hd
    rw [hkeysF]
    exact hADmem _ (hG1AD ⟨e, he, hmem⟩)
  · intro kv hkv d hd hnone
    have hnotkey : unify_submodules d md ∉ graphKeys G1 := by
      intro hk
      rcases (graphKeys_foldl_extend g []).mp hk with h | ⟨kv2, hkv2, h⟩
      · exact absurd h (List.not_mem_nil _)
      · exact hnone kv2 hkv2 h.symm
    have hin : unify_submodules d md ∈ AD := by
      obtain ⟨e, he, hmem⟩ := value_mem_foldl_extend_of_mem g [] hkv hd
      exact hG1AD ⟨e, he, hmem⟩
    have hmem2 : (unify_submodules d md, ([] : List Str)) ∈ G2 :=
      foldl_addEmptyKey_new AD G1 hin hnotkey
    rw [hunfold]
    exact List.mem_map.mpr ⟨(unify_submodules d md, []), hmem2, rfl⟩

/-- C10 witness: the fourth part applied to the one-edge graph
`{a::b: [c::d]}` at depth 1: `c` becomes a key with an empty adjacency
list. -/
theorem c10_unify_graph_witness :
    ("c".toList, ([] : List Str))
      ∈ unify_submodules_in_graph [("a::b".toList, ["c::d".toList])] 1 :=
  (c10_unify_graph [("a::b".toList, ["c::d".toList])] 1).2.2.2
    ("a::b".toList, ["c::d".toList]) (List.mem_singleton.mpr rfl)
    "c::d".toList (List.mem_singleton.mpr rfl)
    (by decide)

/-! ### Claim C9 -/

theorem mem_foldl_append {α β : Type} (f : β → List α) :
    ∀ (L : List β) (acc : List α) (x : α),
      x ∈ L.foldl (fun acc p => acc ++ f p) acc ↔ x ∈ acc ∨ ∃ p ∈ L, x ∈ f p := by
  intro L
  induction L with
  | nil => intro acc x; simp
  | cons p rest ih =>
    intro acc x
    rw [List.foldl_cons, ih]
    constructor
    · rintro (h | ⟨q, hq, hx⟩)
      · rcases List.mem_append.mp h with h | h
        · exact Or.inl h
        · exact Or.inr ⟨p, List.mem_cons_self _ _, h⟩
      · exact Or.inr ⟨q, List.mem_cons_of_mem _ hq, hx⟩
    · rintro (h | ⟨q, hq, hx⟩)
      · exact Or.inl (List.mem_append_left _ h)
      · rcases List.mem_cons.mp hq with rfl | hq
        · exact Or.inl (List.mem_append_right _ hx)
        · exact Or.inr ⟨q, hq, hx⟩

/-- C9: the alias table is file-global and unscoped.  (1) Whatever the
declaration scan (over all `use` items, at any inline-module nesting
depth) records for a name resolves every expression path starting with
that name, anywhere in the file, into the deduplicated result.  (2) In
the concrete overwrite scenario, the alias `al` declared later inside an
inline module overwrites the earlier top-level one for the whole file:
the reference `al::f` outside the module resolves to `libb::t2::f`. -/
theorem c9_alias_table :
    (∀ (items : RItems) (logical_path first tgt : Str) (rest : List Str),
      PathRef.mk (first :: rest) false ∈ visit_items items →
      first ≠ crateKw → first ≠ superKw →
      (top_level_scan items [] emptyAliases logical_path).2 first = some tgt →
      rejoin_alias_with_rest tgt (first :: rest)
        ∈ get_dependencies_in_file logical_path items)
    ∧ get_dependencies_in_file "pkg::m".toList c9_example_items
      = ["liba::t1".toList, "libb::t2".toList, "libb::t2::f".toList] := by
  constructor
  · intro items logical_path first tgt rest hp hcr hsu halias
    have hvp : visit_path (top_level_scan items [] emptyAliases logical_path).2
        logical_path ⟨first :: rest, false⟩
        = [rejoin_alias_with_rest tgt (first :: rest)] := by
      rw [visit_path]
      rw [if_neg (by simp), if_neg hcr, if_neg hsu, halias]
    have hx : rejoin_alias_with_rest tgt (first :: rest)
        ∈ (visit_items items).foldl
          (fun acc p => acc ++ visit_path
            (top_level_scan items [] emptyAliases logical_path).2 logical_path p) [] := by
      rw [mem_foldl_append]
      refine Or.inr ⟨⟨first :: rest, false⟩, hp, ?_⟩
      rw [hvp]
      exact List.mem_singleton.mpr rfl
    show rejoin_alias_with_rest tgt (first :: rest)
      ∈ dedupFirst [] ((top_level_scan items [] emptyAliases logical_path).1
        ++ (visit_items items).foldl
          (fun acc p => acc ++ visit_path
            (top_level_scan items [] emptyAliases logical_path).2 logical_path p) [])
    rw [mem_dedupFirst]
    exact ⟨List.mem_append_right _ hx, List.not_mem_nil _⟩
  · decide

/-- C9 witness: part (1) applied to the overwrite scenario: the alias
`al ↦ libb::t2` recorded inside the inline module resolves the outside
reference `al::f`. -/
theorem c9_alias_table_witness :
    rejoin_alias_with_rest "libb::t2".toList ["al".toList, "f".toList]
      ∈ get_dependencies_in_file "pkg::m".toList c9_example_items :=
  c9_alias_table.1 c9_example_items "pkg::m".toList "al".toList "libb::t2".toList
    ["f".toList] (by decide) (by decide) (by decide) (by decide)

/-! ### Lemmas on the adjacency list (claims C7, C4) -/

theorem getD_set_self {α : Type} {l : List α} {i : Nat} {x d : α} (h : i < l.length) :
    (l.set i x).getD i d = x := by
  rw [List.getD_eq_getElem?_getD, List.getElem?_set_self h]
  rfl

theorem getD_set_ne {α : Type} {l : List α} {i j : Nat} {x d : α} (h : i ≠ j) :
    (l.set i x).getD j d = l.getD j d := by
  rw [List.getD_eq_getElem?_getD, List.getElem?_set_ne h, ← List.getD_eq_getElem?_getD]

theorem getD_replicate_self {α : Type} {n i : Nat} {d : α} :
    (List.replicate n d).getD i d = d := by
  rw [List.getD_eq_getElem?_getD, List.getElem?_replicate]
  by_cases h : i < n
  · rw [if_pos h]; rfl
  · rw [if_neg h]; rfl

theorem idxOf?_lt_length {x : Str} :
    ∀ {nodes : List Str} {i : Nat}, idxOf? x nodes = some i → i < nodes.length := by
  intro nodes
  induction nodes with
  | nil => intro i h; simp [idxOf?] at h
  | cons y ys ih =>
    intro i h
    rw [idxOf?] at h
    by_cases hy : y = x
    · rw [if_pos hy] at h
      cases h
      simp
    · rw [if_neg hy] at h
      cases hopt : idxOf? x ys with
      | none => rw [hopt] at h; cases h
      | some j =>
        rw [hopt] at h
        have hj := ih hopt
        have : j + 1 = i := by
          simpa using h
        rw [← this]
        exact Nat.succ_lt_succ hj

theorem idxOf?_getD {x : Str} :
    ∀ {nodes : List Str} {i : Nat}, idxOf? x nodes = some i → nodes.getD i [] = x := by
  intro nodes
  induction nodes with
  | nil => intro i h; simp [idxOf?] at h
  | cons y ys ih =>
    intro i h
    rw [idxOf?] at h
    by_cases hy : y = x
    · rw [if_pos hy] at h
      cases h
      exact hy
    · rw [if_neg hy] at h
      cases hopt : idxOf? x ys with
      | none => rw [hopt] at h; cases h
      | some j =>
        rw [hopt] at h
        have : j + 1 = i := by simpa using h
        rw [← this]
        exact ih hopt

theorem idxOf?_inj {a b : Str} {nodes : List Str} {i : Nat}
    (ha : idxOf? a nodes = some i) (hb : idxOf? b nodes = some i) : a = b := by
  rw [← idxOf?_getD ha, idxOf?_getD hb]

theorem graphKeys_entry_map (g : Graph) (k : Str) (vs : List Str) :
    graphKeys (g.map fun p => if p.1 = k then (p.1, p.2 ++ vs) else p) = graphKeys g := by
  rw [graphKeys, graphKeys, List.map_map]
  congr 1
  funext p
  by_cases hp : p.1 = k
  · simp [hp]
  · simp [hp]

theorem graphKeys_extendEntry_nodup {g : Graph} {k : Str} {vs : List Str}
    (h : (graphKeys g).Nodup) : (graphKeys (extendEntry g k vs)).Nodup := by
  rw [extendEntry]
  by_cases hk : g.any fun p => p.1 = k
  · rw [if_pos hk, graphKeys_entry_map]
    exact h
  · rw [if_neg hk, graphKeys, List.map_append, List.nodup_append]
    refine ⟨h, List.nodup_singleton _, ?_⟩
    intro a ha hb
    rw [show List.map Prod.fst [(k, vs)] = [k] from rfl] at hb
    rw [List.mem_singleton.mp hb] at ha
    obtain ⟨p, hp, hpk⟩ := List.mem_map.mp ha
    exact hk (List.any_eq_true.mpr ⟨p, hp, decide_eq_true hpk⟩)

theorem graphKeys_addEmptyKey_nodup {g : Graph} {k : Str}
    (h : (graphKeys g).Nodup) : (graphKeys (addEmptyKey g k)).Nodup := by
  rw [addEmptyKey]
  by_cases hk : g.any fun p => p.1 = k
  · rw [if_pos hk]
    exact h
  · rw [if_neg hk, graphKeys, List.map_append, List.nodup_append]
    refine ⟨h, List.nodup_singleton _, ?_⟩
    intro a ha hb
    rw [show List.map Prod.fst [(k, ([] : List Str))] = [k] from rfl] at hb
    rw [List.mem_singleton.mp hb] at ha
    obtain ⟨p, hp, hpk⟩ := List.mem_map.mp ha
    exact hk (List.any_eq_true.mpr ⟨p, hp, decide_eq_true hpk⟩)

theorem graphKeys_foldl_extend_nodup {md : Nat} :
    ∀ (g acc : Graph), (graphKeys acc).Nodup →
      (graphKeys (g.foldl (fun acc p => extendEntry acc (unify_submodules p.1 md)
        (p.2.map fun d => unify_submodules d md)) acc)).Nodup := by
  intro g
  induction g with
  | nil => intro acc h; exact h
  | cons p rest ih =>
    intro acc h
    rw [List.foldl_cons]
    exact ih _ (graphKeys_extendEntry_nodup h)

theorem graphKeys_foldl_addEmptyKey_nodup :
    ∀ (L : List Str) (g : Graph), (graphKeys g).Nodup →
      (graphKeys (L.foldl addEmptyKey g)).Nodup := by
  intro L
  induction L with
  | nil => intro g h; exact h
  | cons y rest ih =>
    intro g h
    rw [List.foldl_cons]
    exact ih _ (graphKeys_addEmptyKey_nodup h)

theorem unify_graphKeys_nodup (g : Graph) (md : Nat) :
    (graphKeys (unify_submodules_in_graph g md)).Nodup := by
  have hunfold : unify_submodules_in_graph g md
      = ((((g.foldl (fun acc p => extendEntry acc (unify_submodules p.1 md)
              (p.2.map fun d => unify_submodules d md)) []).map Prod.snd).flatten).foldl
          addEmptyKey (g.foldl (fun acc p => extendEntry acc (unify_submodules p.1 md)
              (p.2.map fun d => unify_submodules d md)) [])).map
        (fun p => (p.1, dedupAdjacent (sortStrings p.2))) := rfl
  rw [hunfold, graphKeys_map_value _ (fun l => dedupAdjacent (sortStrings l))]
  exact graphKeys_foldl_addEmptyKey_nodup _ _
    (graphKeys_foldl_extend_nodup g [] List.nodup_nil)

theorem unify_values_nodup (g : Graph) (md : Nat) :
    ∀ kv ∈ unify_submodules_in_graph g md, kv.2.Nodup := by
  intro kv hkv
  have hunfold : unify_submodules_in_graph g md
      = ((((g.foldl (fun acc p => extendEntry acc (unify_submodules p.1 md)
              (p.2.map fun d => unify_submodules d md)) []).map Prod.snd).flatten).foldl
          addEmptyKey (g.foldl (fun acc p => extendEntry acc (unify_submodules p.1 md)
              (p.2.map fun d => unify_submodules d md)) [])).map
        (fun p => (p.1, dedupAdjacent (sortStrings p.2))) := rfl
  rw [hunfold] at hkv
  obtain ⟨p, _, rfl⟩ := List.mem_map.mp hkv
  exact (sorted_nodup_value p.2).2

theorem nodes_of_nodup (g : Graph) (md : Nat) : (nodes_of g md).Nodup := by
  rw [nodes_of, sortStrings]
  exact (List.Perm.nodup_iff (List.perm_insertionSort _ _)).mpr
    (unify_graphKeys_nodup g md)

theorem build_adjacency_foldl_length (nodes : List Str) :
    ∀ (g : Graph) (acc : List (List Nat)),
      (g.foldl (fun acc p =>
        match idxOf? p.1 nodes with
        | some i => acc.set i ((acc.getD i []) ++ p.2.filterMap (fun d => idxOf? d nodes))
        | none => acc) acc).length = acc.length := by
  intro g
  induction g with
  | nil => intro acc; rfl
  | cons p rest ih =>
    intro acc
    rw [List.foldl_cons]
    rw [ih]
    cases idxOf? p.1 nodes with
    | none => rfl
    | some i => exact List.length_set _ _ _

theorem build_adjacency_length (G : Graph) (nodes : List Str) :
    (build_adjacency_list G nodes).length = nodes.length := by
  rw [build_adjacency_list, build_adjacency_foldl_length, List.length_replicate]

theorem build_adjacency_foldl_mem (nodes : List Str) :
    ∀ (g : Graph) (acc : List (List Nat)), acc.length = nodes.length →
      ∀ (i j : Nat), j ∈ (g.foldl (fun acc p =>
        match idxOf? p.1 nodes with
        | some i => acc.set i ((acc.getD i []) ++ p.2.filterMap (fun d => idxOf? d nodes))
        | none => acc) acc).getD i [] →
      j ∈ acc.getD i []
      ∨ ∃ kv ∈ g, idxOf? kv.1 nodes = some i ∧ ∃ d ∈ kv.2, idxOf? d nodes = some j := by
  intro g
  induction g with
  | nil =>
    intro acc _ i j h
    exact Or.inl h
  | cons p rest ih =>
    intro acc hlen i j h
    rw [List.foldl_cons] at h
    cases hidx : idxOf? p.1 nodes with
    | none =>
      rw [hidx] at h
      rcases ih acc hlen i j h with h | ⟨kv, hkv, hrest⟩
      · exact Or.inl h
      · exact Or.inr ⟨kv, List.mem_cons_of_mem _ hkv, hrest⟩
    | some i0 =>
      rw [hidx] at h
      have hlen2 : (acc.set i0 ((acc.getD i0 [])
          ++ p.2.filterMap (fun d => idxOf? d nodes))).length = nodes.length := by
        rw [List.length_set]; exact hlen
      rcases ih _ hlen2 i j h with h | ⟨kv, hkv, hrest⟩
      · by_cases hii : i0 = i
        · subst hii
          rw [getD_set_self (hlen ▸ idxOf?_lt_length hidx)] at h
          rcases List.mem_append.mp h with h | h
          · exact Or.inl h
          · obtain ⟨d, hd, hdj⟩ := List.mem_filterMap.mp h
            exact Or.inr ⟨p, List.mem_cons_self _ _, hidx, d, hd, hdj⟩
        · rw [getD_set_ne hii] at h
          exact Or.inl h
      · exact Or.inr ⟨kv, List.mem_cons_of_mem _ hkv, hrest⟩

theorem build_adjacency_mem {G : Graph} {nodes : List Str} {i j : Nat}
    (h : j ∈ (build_adjacency_list G nodes).getD i []) :
    ∃ kv ∈ G, idxOf? kv.1 nodes = some i ∧ ∃ d ∈ kv.2, idxOf? d nodes = some j := by
  rw [build_adjacency_list] at h
  rcases build_adjacency_foldl_mem nodes G _ (List.length_replicate _ _) i j h
    with h | h
  · rw [show (List.replicate nodes.length ([] : List Nat)).getD i [] = []
      from getD_replicate_self] at h
    exact absurd h (List.not_mem_nil j)
  · exact h

theorem build_adjacency_foldl_nodup (nodes : List Str) :
    ∀ (g : Graph) (acc : List (List Nat)),
      (graphKeys g).Nodup → (∀ kv ∈ g, kv.2.Nodup) →
      acc.length = nodes.length →
      (∀ i, (acc.getD i []).Nodup) →
      (∀ kv ∈ g, ∀ i, idxOf? kv.1 nodes = some i → acc.getD i [] = []) →
      ∀ i, ((g.foldl (fun acc p =>
        match idxOf? p.1 nodes with
        | some i => acc.set i ((acc.getD i []) ++ p.2.filterMap (fun d => idxOf? d nodes))
        | none => acc) acc).getD i []).Nodup := by
  intro g
  induction g with
  | nil =>
    intro acc _ _ _ hnod _ i
    exact hnod i
  | cons p rest ih =>
    intro acc hkeys hvals hlen hnod hempty i
    rw [List.foldl_cons]
    cases hidx : idxOf? p.1 nodes with
    | none =>
      refine ih acc ((List.nodup_cons.mp (by rwa [graphKeys] at hkeys)).2) ?_ hlen hnod ?_ i
      · intro kv hkv; exact hvals kv (List.mem_cons_of_mem _ hkv)
      · intro kv hkv i0 hkvi
        exact hempty kv (List.mem_cons_of_mem _ hkv) i0 hkvi
    | some i0 =>
      have hi0 : i0 < acc.length := hlen ▸ idxOf?_lt_length hidx
      have hrow : acc.getD i0 [] = [] := hempty p (List.mem_cons_self _ _) i0 hidx
      have hkeys' : (graphKeys rest).Nodup :=
        (List.nodup_cons.mp (by rwa [graphKeys] at hkeys)).2
      have hphead : p.1 ∉ graphKeys rest :=
        (List.nodup_cons.mp (by rwa [graphKeys] at hkeys)).1
      refine ih _ hkeys' (fun kv hkv => hvals kv (List.mem_cons_of_mem _ hkv)) ?_ ?_ ?_ i
      · rw [List.length_set]; exact hlen
      · intro i1
        by_cases hii : i0 = i1
        · subst hii
          rw [getD_set_self hi0, hrow, List.nil_append]
          refine List.Nodup.filterMap ?_ (hvals p (List.mem_cons_self _ _))
          intro a b c hca hcb
          exact idxOf?_inj (Option.mem_def.mp hca) (Option.mem_def.mp hcb)
        · rw [getD_set_ne hii]
          exact hnod i1
      · intro kv hkv i1 hkvi
        by_cases hii : i0 = i1
        · subst hii
          have : kv.1 = p.1 := idxOf?_inj hkvi hidx
          exact absurd (this ▸ List.mem_map.mpr ⟨kv, hkv, rfl⟩) hphead
        · rw [getD_set_ne hii]
          exact hempty kv (List.mem_cons_of_mem _ hkv) i1 hkvi

theorem adjacency_row_nodup (g : Graph) (md : Nat) (i : Nat) :
    ((adjacency_of g md).getD i []).Nodup := by
  rw [adjacency_of, build_adjacency_list]
  refine build_adjacency_foldl_nodup (nodes_of g md) (unify_submodules_in_graph g md) _
    (unify_graphKeys_nodup g md) (unify_values_nodup g md)
    (List.length_replicate _ _) (fun _ => getD_replicate_self ▸ List.nodup_nil) ?_ i
  intro kv hkv i0 hkvi
  exact getD_replicate_self

theorem contains_iff_mem {l : List Nat} {v : Nat} : l.contains v = true ↔ v ∈ l :=
  List.elem_iff

theorem length_le_one_of_nodup_all_eq {l : List Nat} {v : Nat}
    (h : l.Nodup) (hall : ∀ j ∈ l, j = v) : l.length ≤ 1 := by
  cases l with
  | nil => exact Nat.zero_le 1
  | cons x rest =>
    cases rest with
    | nil => exact Nat.le_refl 1
    | cons y r2 =>
      have hx : x = v := hall x (List.mem_cons_self _ _)
      have hy : y = v := hall y (List.mem_cons_of_mem _ (List.mem_cons_self _ _))
      have := (List.nodup_cons.mp h).1
      exact absurd (by rw [hx, ← hy]; exact List.mem_cons_self _ _) this

theorem one_lt_length_of_mem_ne {l : List Nat} {a b : Nat}
    (ha : a ∈ l) (hb : b ∈ l) (hne : a ≠ b) : 1 < l.length := by
  cases l with
  | nil => exact absurd ha (List.not_mem_nil a)
  | cons x rest =>
    cases rest with
    | nil =>
      rw [List.mem_singleton.mp ha, List.mem_singleton.mp hb] at hne
      exact absurd rfl hne
    | cons y r2 => simp [Nat.lt_add_one_iff]

/-! ### Claim C7 -/

/-- C7: (1) the graph `{X: [X]}` yields no reported cycle for any
`max_depth`; (2) for every graph and `max_depth`, a size-1 SCC `[v]`
contributes a reported cycle iff node `v` has an edge to itself and at
least one other outgoing edge in the truncated graph's adjacency list. -/
theorem c7_self_loop :
    (∀ max_depth : Nat,
      find_all_cycles_in_dependencies [("X".toList, ["X".toList])] max_depth = some [])
    ∧ (∀ (g : Graph) (max_depth : Nat) (v : Nat),
        process_scc (adjacency_of g max_depth) (nodes_of g max_depth) [v] ≠ []
        ↔ v ∈ (adjacency_of g max_depth).getD v []
          ∧ ∃ j ∈ (adjacency_of g max_depth).getD v [], j ≠ v) := by
  constructor
  · intro md
    cases md with
    | zero => decide
    | succ n =>
      have h1 : unify_submodules "X".toList (n + 1) = "X".toList := by
        simp only [unify_submodules]
        rw [if_pos]
        rw [show (splitOnSep "X".toList).length = 1 from rfl]
        exact Nat.succ_le_succ (Nat.zero_le n)
      have h1' : unify_submodules "X".toList 1 = "X".toList := by decide
      have h2 : unify_submodules_in_graph [("X".toList, ["X".toList])] (n + 1)
          = unify_submodules_in_graph [("X".toList, ["X".toList])] 1 := by
        simp only [unify_submodules_in_graph, List.foldl_cons, List.foldl_nil,
          List.map_cons, List.map_nil, h1, h1']
      have h3 : find_all_cycles_in_dependencies [("X".toList, ["X".toList])] (n + 1)
          = find_all_cycles_in_dependencies [("X".toList, ["X".toList])] 1 := by
        simp only [find_all_cycles_in_dependencies, adjacency_of, nodes_of, h2]
      rw [h3]
      decide
  · intro g md v
    have hps : process_scc (adjacency_of g md) (nodes_of g md) [v]
        = if (adjacency_of g md).getD v [] |>.contains v then
            (if ((adjacency_of g md).getD v []).length > 1 then
              [(nodes_of g md).getD v [] ++ arrow ++ (nodes_of g md).getD v []]
            else [])
          else [] := by
      rw [process_scc, if_neg (by simp)]
    rw [hps]
    by_cases hc : ((adjacency_of g md).getD v []).contains v = true
    · rw [if_pos hc]
      have hmem : v ∈ (adjacency_of g md).getD v [] := contains_iff_mem.mp hc
      by_cases hlen : ((adjacency_of g md).getD v []).length > 1
      · rw [if_pos hlen]
        refine iff_of_true (by simp) ⟨hmem, ?_⟩
        by_contra hno
        push_neg at hno
        have hall : ∀ j ∈ (adjacency_of g md).getD v [], j = v := hno
        have := length_le_one_of_nodup_all_eq (adjacency_row_nodup g md v) hall
        omega
      · rw [if_neg hlen]
        refine iff_of_false (by simp) ?_
        rintro ⟨hv, j, hj, hne⟩
        exact hlen (one_lt_length_of_mem_ne hv hj (Ne.symm hne))
    · rw [if_neg hc]
      refine iff_of_false (by simp) ?_
      rintro ⟨hv, _⟩
      exact hc (contains_iff_mem.mpr hv)

/-- C7 witness: part (2) applied to the graph `{X: [X]}` at depth 1:
node 0 has only the self-edge, so no cycle is contributed. -/
theorem c7_self_loop_witness :
    ¬(process_scc (adjacency_of [("X".toList, ["X".toList])] 1)
        (nodes_of [("X".toList, ["X".toList])] 1) [0] ≠ []) := by
  intro h
  have := (c7_self_loop.2 [("X".toList, ["X".toList])] 1 0).mp h
  revert this
  decide

/-! ### Claim C4: cycle detection on acyclic graphs -/

theorem filter_length_lt_of {l : List Nat} {p q : Nat → Bool} {v : Nat}
    (hnd : l.Nodup) (hv : v ∈ l) (hpv : p v = true) (hqv : q v = false)
    (hagree : ∀ u ∈ l, u ≠ v → q u = p u) :
    (l.filter q).length < (l.filter p).length := by
  induction l with
  | nil => exact absurd hv (List.not_mem_nil v)
  | cons x rest ih =>
    have hnd' := (List.nodup_cons.mp hnd).2
    have hxrest := (List.nodup_cons.mp hnd).1
    by_cases hxv : x = v
    · subst hxv
      rw [List.filter_cons, List.filter_cons, hpv, hqv]
      simp only [if_pos, if_neg, Bool.false_eq_true, if_false, if_true]
      have heq : rest.filter q = rest.filter p := by
        apply List.filter_congr
        intro u hu
        exact hagree u (List.mem_cons_of_mem _ hu) (fun hv2 => hxrest (hv2 ▸ hu))
      rw [heq]
      simp
    · have hvrest : v ∈ rest := by
        rcases List.mem_cons.mp hv with rfl | hv2
        · exact absurd rfl hxv
        · exact hv2
      have hstep := ih hnd' hvrest
        (fun u hu hne => hagree u (List.mem_cons_of_mem _ hu) hne)
      rw [List.filter_cons, List.filter_cons,
        hagree x (List.mem_cons_self _ _) hxv]
      by_cases hpx : p x = true
      · rw [hpx]
        simpa using Nat.succ_lt_succ hstep
      · rw [Bool.not_eq_true] at hpx
        rw [hpx]
        simpa using hstep

theorem unindexed_eq_of_indices_eq {adj : List (List Nat)} {s s' : TarjanState}
    (h : s'.indices = s.indices) : tarjan_unindexed adj s' = tarjan_unindexed adj s := by
  rw [tarjan_unindexed, tarjan_unindexed, h]

theorem unindexed_set_lt {adj : List (List Nat)} {st : TarjanState} {v : Nat} {x : Int}
    (hv : v < adj.length) (hunidx : st.indices.getD v (-1) = -1)
    (hlen : st.indices.length = adj.length) (hx : x ≠ -1) :
    tarjan_unindexed adj
      { st with
        indices := st.indices.set v x,
        index := st.index + 1,
        lowlink := st.lowlink.set v x,
        stack := v :: st.stack,
        in_stack := st.in_stack.set v true }
      < tarjan_unindexed adj st := by
  apply filter_length_lt_of (List.nodup_range _) (List.mem_range.mpr hv)
  · rw [hunidx]; rfl
  · show (((st.indices.set v x).getD v (-1)) == -1) = false
    rw [getD_set_self (hlen ▸ hv)]
    exact beq_eq_false_iff_ne.mpr hx
  · intro u _ hne
    show (((st.indices.set v x).getD u (-1)) == -1) = ((st.indices.getD u (-1)) == -1)
    rw [getD_set_ne (fun h => hne h.symm)]

theorem tarjan_unindexed_le (adj : List (List Nat)) (st : TarjanState) :
    tarjan_unindexed adj st ≤ adj.length := by
  rw [tarjan_unindexed]
  calc ((List.range adj.length).filter _).length
      ≤ (List.range adj.length).length := List.length_filter_le _ _
    _ = adj.length := List.length_range _

theorem tarjan_step_eval (adj : List (List Nat)) (f v w : Nat) (s : TarjanState) :
    tarjan_step (fun w s => strongconnectF adj f w s) v (some s) w
    = (if s.indices.getD w (-1) = -1 then
        match strongconnectF adj f w s with
        | none => none
        | some s2 =>
          some { s2 with
                 lowlink := s2.lowlink.set v
                   (min (s2.lowlink.getD v (-1)) (s2.lowlink.getD w (-1))) }
      else if s.in_stack.getD w false then
        some { s with
               lowlink := s.lowlink.set v
                 (min (s.lowlink.getD v (-1)) (s.indices.getD w (-1))) }
      else some s) := rfl

theorem strongconnect_dag (adj : List (List Nat))
    (hadj : ∀ i j, j ∈ adj.getD i [] → j < adj.length)
    (hacyc : ∀ i, ¬ Relation.TransGen (adj_edge adj) i i) :
    ∀ (fuel : Nat) (v : Nat) (st : TarjanState),
      tarjan_unindexed adj st < fuel →
      v < adj.length →
      st.indices.getD v (-1) = -1 →
      TarjanInv adj st →
      (∀ u ∈ st.stack, Relation.ReflTransGen (adj_edge adj) u v) →
      ∃ st', strongconnectF adj fuel v st = some st' ∧ SCResult adj st st' v := by
  intro fuel
  induction fuel with
  | zero =>
    intro v st hfuel
    omega
  | succ f ih =>
    intro v st hfuel hv hunidx hinv hreach
    have hvnotstack : v ∉ st.stack := fun hmem => hinv.stack_indexed v hmem hunidx
    have hstv : st.in_stack.getD v false = false := by
      cases hb : st.in_stack.getD v false
      · rfl
      · exact absurd ((hinv.stack_iff v).mpr ⟨hv, hb⟩) hvnotstack
    have hidx_ne : st.index + 1 ≠ (-1 : Int) := by
      have := hinv.index_nonneg
      omega
    -- the state after the entry bookkeeping of `strongconnect`
    have hmid1 : MidInv adj st v
        { st with
          index := st.index + 1,
          indices := st.indices.set v (st.index + 1),
          lowlink := st.lowlink.set v (st.index + 1),
          stack := v :: st.stack,
          in_stack := st.in_stack.set v true } := by
      refine ⟨⟨?_, ?_, ?_, ?_, ?_, ?_⟩, rfl, ?_, ?_, ?_, ?_, ?_, ?_, ?_, ?_, ⟨[], by simp, by simp⟩, ?_⟩
      · rw [List.length_set]; exact hinv.len_indices
      · rw [List.length_set]; exact hinv.len_lowlink
      · rw [List.length_set]; exact hinv.len_in_stack
      · intro u
        by_cases huv : u = v
        · subst huv
          refine iff_of_true (List.mem_cons_self _ _) ⟨hv, ?_⟩
          exact getD_set_self (hinv.len_in_stack ▸ hv)
        · rw [show ((st.in_stack.set v true).getD u false)
              = st.in_stack.getD u false from getD_set_ne (fun h => huv h.symm)]
          constructor
          · intro hu
            rcases List.mem_cons.mp hu with rfl | hu
            · exact absurd rfl huv
            · exact (hinv.stack_iff u).mp hu
          · intro hu
            exact List.mem_cons_of_mem _ ((hinv.stack_iff u).mpr hu)
      · intro u hu
        by_cases huv : u = v
        · subst huv
          rw [getD_set_self (hinv.len_indices ▸ hv)]
          exact hidx_ne
        · rw [getD_set_ne (fun h => huv h.symm)]
          rcases List.mem_cons.mp hu with rfl | hu
          · exact absurd rfl huv
          · exact hinv.stack_indexed u hu
      · show (0 : Int) ≤ st.index + 1
        have := hinv.index_nonneg
        omega
      · intro u huv
        exact getD_set_ne (fun h => huv h.symm)
      · exact getD_set_self (hinv.len_in_stack ▸ hv)
      · exact getD_set_self (hinv.len_indices ▸ hv)
      · exact getD_set_self (hinv.len_lowlink ▸ hv)
      · exact Int.le_refl _
      · intro u hu
        have huv : u ≠ v := fun h => (h ▸ hu) hunidx
        exact getD_set_ne (fun h => huv h.symm)
      · intro u hu
        have huv : u ≠ v := fun h => (h ▸ hu) hunidx
        exact getD_set_ne (fun h => huv h.symm)
      · intro u hu
        by_cases huv : u = v
        · subst huv
          rw [getD_set_self (hinv.len_indices ▸ hv)]
          exact Or.inr ⟨Int.le_refl _, Int.le_refl _⟩
        · rw [getD_set_ne (fun h => huv h.symm)] at hu ⊢
          exact Or.inl hu
      · exact unindexed_set_lt hv hunidx hinv.len_indices hidx_ne
    -- the fold over the neighbours of `v` preserves `MidInv`
    have fold_lemma : ∀ (ws : List Nat), (∀ w ∈ ws, w ∈ adj.getD v []) →
        ∀ s : TarjanState, MidInv adj st v s →
        ∃ s', (ws.foldl (tarjan_step (fun w s => strongconnectF adj f w s) v) (some s))
          = some s' ∧ MidInv adj st v s' := by
      intro ws
      induction ws with
      | nil =>
        intro _ s hmid
        exact ⟨s, rfl, hmid⟩
      | cons w ws' ihw =>
        intro hsub s hmid
        have hwrow : w ∈ adj.getD v [] := hsub w (List.mem_cons_self _ _)
        have hwn : w < adj.length := hadj v w hwrow
        have hsub' : ∀ x ∈ ws', x ∈ adj.getD v [] :=
          fun x hx => hsub x (List.mem_cons_of_mem _ hx)
        rw [List.foldl_cons, tarjan_step_eval]
        by_cases hw : s.indices.getD w (-1) = -1
        · -- unvisited neighbour: recursive call
          have hchild := ih w s
            (by have h1 := hmid.unindexed_lt; omega)
            hwn hw hmid.inv
            (by
              intro u hu
              rw [hmid.stack_eq] at hu
              rcases List.mem_cons.mp hu with rfl | hu
              · exact Relation.ReflTransGen.single hwrow
              · exact Relation.ReflTransGen.tail (hreach u hu) hwrow)
          obtain ⟨s2, hs2, hres⟩ := hchild
          have hv_ne : s.indices.getD v (-1) ≠ -1 := by
            rw [hmid.indices_v]; exact hidx_ne
          have hlow_v : s2.lowlink.getD v (-1) = st.index + 1 := by
            rw [hres.old_lowlink v hv_ne, hmid.lowlink_v]
          have hlow_w : s2.lowlink.getD w (-1) = s.index + 1 := hres.v_lowlink
          have hmin : min (s2.lowlink.getD v (-1)) (s2.lowlink.getD w (-1))
              = st.index + 1 := by
            rw [hlow_v, hlow_w]
            have := hmid.index_ge
            omega
          rw [if_pos hw, hs2]
          show ∃ s', List.foldl (tarjan_step (fun w s => strongconnectF adj f w s) v)
              (some { s2 with
                      lowlink := s2.lowlink.set v
                        (min (s2.lowlink.getD v (-1)) (s2.lowlink.getD w (-1))) }) ws'
              = some s' ∧ MidInv adj st v s'
          rw [hmin]
          refine ihw hsub' _ ?_
          have hvlen2 : v < s2.lowlink.length := hres.inv.len_lowlink ▸ hv
          obtain ⟨L1, hL1, hL1s⟩ := hmid.sccs_ext
          obtain ⟨L2, hL2, hL2s⟩ := hres.sccs_ext
          refine ⟨⟨?_, ?_, ?_, ?_, ?_, ?_⟩, ?_, ?_, ?_, ?_, ?_, ?_, ?_, ?_, ?_, ?_, ?_⟩
          · exact hres.inv.len_indices
          · rw [List.length_set]; exact hres.inv.len_lowlink
          · exact hres.inv.len_in_stack
          · exact hres.inv.stack_iff
          · exact hres.inv.stack_indexed
          · exact hres.inv.index_nonneg
          · rw [hres.stack_eq, hmid.stack_eq]
          · intro u huv
            rw [hres.in_stack_eq u]
            exact hmid.in_stack_old u huv
          · rw [hres.in_stack_eq v]
            exact hmid.in_stack_v
          · rw [hres.old_indices v hv_ne, hmid.indices_v]
          · exact getD_set_self hvlen2
          · show st.index + 1 ≤ s2.index
            have h1 := hmid.index_ge
            have h2 := hres.index_le
            omega
          · intro u hu
            have hsu : s.indices.getD u (-1) ≠ -1 := by
              rw [hmid.old_indices u hu]
              exact hu
            rw [hres.old_indices u hsu]
            exact hmid.old_indices u hu
          · intro u hu
            have huv : u ≠ v := fun h => (h ▸ hu) hunidx
            have hsu : s.indices.getD u (-1) ≠ -1 := by
              rw [hmid.old_indices u hu]
              exact hu
            rw [getD_set_ne (fun h => huv h.symm), hres.old_lowlink u hsu]
            exact hmid.old_lowlink u hu
          · intro u hu
            show st.indices.getD u (-1) ≠ -1
              ∨ (st.index + 1 ≤ s2.indices.getD u (-1) ∧ s2.indices.getD u (-1) ≤ s2.index)
            rcases hres.new_indices u hu with hold | ⟨hlo, hhi⟩
            · rcases hmid.new_indices u hold with h2 | ⟨h2lo, h2hi⟩
              · exact Or.inl h2
              · refine Or.inr ⟨?_, ?_⟩
                · rw [hres.old_indices u hold]
                  exact h2lo
                · rw [hres.old_indices u hold]
                  have h4 := hres.index_le
                  omega
            · refine Or.inr ⟨?_, hhi⟩
              have := hmid.index_ge
              omega
          · refine ⟨L1 ++ L2, ?_, ?_⟩
            · rw [hL2, hL1, List.append_assoc]
            · intro x hx
              rcases List.mem_append.mp hx with hx | hx
              · exact hL1s x hx
              · exact hL2s x hx
          · show tarjan_unindexed adj
                { s2 with lowlink := s2.lowlink.set v (st.index + 1) }
              < tarjan_unindexed adj st
            have h3 : tarjan_unindexed adj
                { s2 with lowlink := s2.lowlink.set v (st.index + 1) }
                = tarjan_unindexed adj s2 := unindexed_eq_of_indices_eq rfl
            rw [h3]
            have h1 := hres.unindexed_lt
            have h2 := hmid.unindexed_lt
            omega
        · -- already indexed neighbour
          rw [if_neg hw]
          by_cases hws : s.in_stack.getD w false = true
          · -- an in-stack neighbour would close a cycle: impossible on a DAG
            exfalso
            have hwstack : w ∈ s.stack := (hmid.inv.stack_iff w).mpr ⟨hwn, hws⟩
            rw [hmid.stack_eq] at hwstack
            rcases List.mem_cons.mp hwstack with rfl | hwstack
            · exact hacyc w (Relation.TransGen.single hwrow)
            · exact hacyc w (Relation.TransGen.tail' (hreach w hwstack) hwrow)
          · rw [if_neg hws]
            exact ihw hsub' s hmid
    simp only [strongconnectF]
    obtain ⟨s', hfold, hmid'⟩ := fold_lemma (adj.getD v []) (fun _ hw => hw) _ hmid1
    rw [hfold]
    have hpop : popLoop v s'.stack s'.in_stack
        = ([v], st.stack, s'.in_stack.set v false) := by
      rw [hmid'.stack_eq, popLoop, if_pos rfl]
    show ∃ st', (if s'.lowlink.getD v (-1) = s'.indices.getD v (-1) then
        some { s' with
               stack := (popLoop v s'.stack s'.in_stack).2.1,
               in_stack := (popLoop v s'.stack s'.in_stack).2.2,
               sccs := s'.sccs ++ [(popLoop v s'.stack s'.in_stack).1] }
      else some s') = some st' ∧ SCResult adj st st' v
    rw [if_pos (by rw [hmid'.lowlink_v, hmid'.indices_v]), hpop]
    show ∃ st', some { s' with
        stack := st.stack,
        in_stack := s'.in_stack.set v false,
        sccs := s'.sccs ++ [[v]] } = some st' ∧ SCResult adj st st' v
    obtain ⟨L, hL, hLs⟩ := hmid'.sccs_ext
    refine ⟨_, rfl, ⟨⟨?_, ?_, ?_, ?_, ?_, ?_⟩, rfl, ?_, ?_, ?_, ?_, ?_, ?_, ?_, ?_, ?_⟩⟩
    · exact hmid'.inv.len_indices
    · exact hmid'.inv.len_lowlink
    · rw [List.length_set]; exact hmid'.inv.len_in_stack
    · intro u
      by_cases huv : u = v
      · subst huv
        refine iff_of_false hvnotstack ?_
        rw [getD_set_self (hmid'.inv.len_in_stack ▸ hv)]
        simp
      · rw [show ((s'.in_stack.set v false).getD u false)
            = s'.in_stack.getD u false from getD_set_ne (fun h => huv h.symm),
          hmid'.in_stack_old u huv]
        exact hinv.stack_iff u
    · intro u hu
      have hsu : st.indices.getD u (-1) ≠ -1 := hinv.stack_indexed u hu
      rw [hmid'.old_indices u hsu]
      exact hsu
    · show (0 : Int) ≤ s'.index
      have h1 := hmid'.index_ge
      have h2 := hinv.index_nonneg
      omega
    · intro u
      by_cases huv : u = v
      · subst huv
        rw [getD_set_self (hmid'.inv.len_in_stack ▸ hv), hstv]
      · rw [show ((s'.in_stack.set v false).getD u false)
            = s'.in_stack.getD u false from getD_set_ne (fun h => huv h.symm)]
        exact hmid'.in_stack_old u huv
    · exact hmid'.old_indices
    · exact hmid'.old_lowlink
    · exact hmid'.indices_v
    · exact hmid'.lowlink_v
    · exact hmid'.index_ge
    · exact hmid'.new_indices
    · refine ⟨L ++ [[v]], ?_, ?_⟩
      · rw [hL, List.append_assoc]
      · intro x hx
        rcases List.mem_append.mp hx with hx | hx
        · exact hLs x hx
        · exact ⟨v, List.mem_singleton.mp hx⟩
    · exact hmid'.unindexed_lt

theorem tarjan_loop_step_eval (adj : List (List Nat)) (n v : Nat) (s : TarjanState) :
    tarjan_loop_step adj n (some s) v
    = (if s.indices.getD v (-1) = -1 then strongconnectF adj (n+1) v s else some s) := rfl

theorem tarjan_scc_dag (adj : List (List Nat))
    (hadj : ∀ i j, j ∈ adj.getD i [] → j < adj.length)
    (hacyc : ∀ i, ¬ Relation.TransGen (adj_edge adj) i i) :
    ∃ sccs, tarjan_scc adj = some sccs ∧ ∀ x ∈ sccs, ∃ u, x = [u] := by
  have main : ∀ (L : List Nat), (∀ v ∈ L, v < adj.length) →
      ∀ st : TarjanState, TarjanInv adj st → st.stack = [] →
      (∀ x ∈ st.sccs, ∃ u, x = [u]) →
      ∃ st', (L.foldl (tarjan_loop_step adj adj.length) (some st)) = some st'
        ∧ TarjanInv adj st' ∧ st'.stack = [] ∧ (∀ x ∈ st'.sccs, ∃ u, x = [u]) := by
    intro L
    induction L with
    | nil =>
      intro _ st h1 h2 h3
      exact ⟨st, rfl, h1, h2, h3⟩
    | cons v L' ihL =>
      intro hsub st h1 h2 h3
      rw [List.foldl_cons, tarjan_loop_step_eval]
      by_cases hidx : st.indices.getD v (-1) = -1
      · obtain ⟨st2, hst2, hres⟩ := strongconnect_dag adj hadj hacyc (adj.length + 1) v st
          (by have := tarjan_unindexed_le adj st; omega)
          (hsub v (List.mem_cons_self _ _)) hidx h1
          (by rw [h2]; intro u hu; exact absurd hu (List.not_mem_nil u))
        rw [if_pos hidx, hst2]
        refine ihL (fun x hx => hsub x (List.mem_cons_of_mem _ hx)) st2 hres.inv ?_ ?_
        · rw [hres.stack_eq, h2]
        · obtain ⟨L2, hL2, hL2s⟩ := hres.sccs_ext
          intro x hx
          rw [hL2] at hx
          rcases List.mem_append.mp hx with hx | hx
          · exact h3 x hx
          · exact hL2s x hx
      · rw [if_neg hidx]
        exact ihL (fun x hx => hsub x (List.mem_cons_of_mem _ hx)) st h1 h2 h3
  obtain ⟨st', hfold, _, _, hsccs'⟩ := main (List.range adj.length)
    (fun v hv => List.mem_range.mp hv)
    ⟨0, [], List.replicate adj.length false, List.replicate adj.length (-1),
      List.replicate adj.length (-1), []⟩
    ⟨List.length_replicate _ _, List.length_replicate _ _, List.length_replicate _ _,
      fun u => iff_of_false (List.not_mem_nil u)
        (fun h => by rw [getD_replicate_self] at h; exact Bool.false_ne_true h.2),
      fun u hu => absurd hu (List.not_mem_nil u),
      Int.le_refl 0⟩
    rfl
    (fun x hx => absurd hx (List.not_mem_nil x))
  refine ⟨st'.sccs, ?_, hsccs'⟩
  simp only [tarjan_scc]
  rw [hfold]
  rfl

theorem adjacency_of_length (g : Graph) (md : Nat) :
    (adjacency_of g md).length = (nodes_of g md).length := by
  rw [adjacency_of, build_adjacency_length]

/-- C4 (amended): whenever the truncated graph produced by
`unify_submodules_in_graph` is acyclic, `find_all_cycles_in_dependencies`
reports no cycles.  (The original input being a DAG does not suffice:
truncation can merge distinct nodes and create reported cycles.) -/
theorem c4_dag_no_cycles :
    ∀ (g : Graph) (max_depth : Nat),
      graph_acyclic (unify_submodules_in_graph g max_depth) →
      find_all_cycles_in_dependencies g max_depth = some [] := by
  intro g md hacyc
  have hadj : ∀ i j, j ∈ (adjacency_of g md).getD i [] → j < (adjacency_of g md).length := by
    intro i j h
    rw [adjacency_of] at h
    obtain ⟨kv, _, _, d, _, hj⟩ := build_adjacency_mem h
    rw [adjacency_of_length]
    exact idxOf?_lt_length hj
  have hacyc' : ∀ i, ¬ Relation.TransGen (adj_edge (adjacency_of g md)) i i := by
    intro i hti
    have lift : ∀ a b, Relation.TransGen (adj_edge (adjacency_of g md)) a b →
        Relation.TransGen (graph_edge (unify_submodules_in_graph g md))
          ((nodes_of g md).getD a []) ((nodes_of g md).getD b []) := by
      have hedge : ∀ a b, adj_edge (adjacency_of g md) a b →
          graph_edge (unify_submodules_in_graph g md)
            ((nodes_of g md).getD a []) ((nodes_of g md).getD b []) := by
        intro a b h
        rw [adj_edge, adjacency_of] at h
        obtain ⟨kv, hkv, hi, d, hd, hj⟩ := build_adjacency_mem h
        exact ⟨kv, hkv, (idxOf?_getD hi).symm, idxOf?_getD hj ▸ hd⟩
      intro a b h
      induction h with
      | single h => exact Relation.TransGen.single (hedge _ _ h)
      | tail _ hbc ihab => exact Relation.TransGen.tail ihab (hedge _ _ hbc)
    exact hacyc _ (lift i i hti)
  obtain ⟨sccs, htar, hsing⟩ := tarjan_scc_dag (adjacency_of g md) hadj hacyc'
  rw [find_all_cycles_in_dependencies, htar]
  show some (List.foldl (fun cycles scc =>
      cycles ++ process_scc (adjacency_of g md) (nodes_of g md) scc) [] sccs) = some []
  congr 1
  rw [List.eq_nil_iff_forall_not_mem]
  intro y hy
  rcases (mem_foldl_append _ sccs [] y).mp hy with hcon | ⟨scc, hscc, hyp⟩
  · exact absurd hcon (List.not_mem_nil y)
  · obtain ⟨u, rfl⟩ := hsing scc hscc
    have hnoself : ((adjacency_of g md).getD u []).contains u = false := by
      cases hb : ((adjacency_of g md).getD u []).contains u
      · rfl
      · exact absurd (Relation.TransGen.single (contains_iff_mem.mp hb)) (hacyc' u)
    have hempty : process_scc (adjacency_of g md) (nodes_of g md) [u] = [] := by
      rw [process_scc, if_neg (by simp)]
      show (if ((adjacency_of g md).getD u []).contains u then
          (if ((adjacency_of g md).getD u []).length > 1 then
            [(nodes_of g md).getD u [] ++ arrow ++ (nodes_of g md).getD u []]
          else [])
        else []) = []
      rw [hnoself]
      simp
    rw [hempty] at hyp
    exact absurd hyp (List.not_mem_nil y)

/-- C4 counterexample: the dependency graph
`{a::x: [b], b: [a::y], a::y: []}` is acyclic (a DAG), and `max_depth = 1`
is `≥ 1`, yet `find_all_cycles_in_dependencies` reports a cycle, because
truncation merges `a::x` and `a::y` into the single node `a`. -/
theorem c4_counterexample :
    graph_acyclic [("a::x".toList, ["b".toList]), ("b".toList, ["a::y".toList]),
      ("a::y".toList, ([] : List Str))]
    ∧ 1 ≤ 1
    ∧ find_all_cycles_in_dependencies [("a::x".toList, ["b".toList]),
        ("b".toList, ["a::y".toList]), ("a::y".toList, [])] 1 ≠ some [] := by
  refine ⟨?_, Nat.le_refl 1, by decide⟩
  have hedge : ∀ x y, graph_edge [("a::x".toList, ["b".toList]),
      ("b".toList, ["a::y".toList]), ("a::y".toList, ([] : List Str))] x y →
      (x = "a::x".toList ∧ y = "b".toList)
      ∨ (x = "b".toList ∧ y = "a::y".toList) := by
    rintro x y ⟨kv, hkv, rfl, hy⟩
    simp only [List.mem_cons, List.not_mem_nil, or_false] at hkv
    rcases hkv with rfl | rfl | rfl
    · exact Or.inl ⟨rfl, by simpa using hy⟩
    · exact Or.inr ⟨rfl, by simpa using hy⟩
    · exact absurd hy (List.not_mem_nil y)
  have hreach2 : ∀ x y, Relation.TransGen (graph_edge [("a::x".toList, ["b".toList]),
      ("b".toList, ["a::y".toList]), ("a::y".toList, ([] : List Str))]) x y →
      (x = "a::x".toList ∧ y = "b".toList)
      ∨ (x = "b".toList ∧ y = "a::y".toList)
      ∨ (x = "a::x".toList ∧ y = "a::y".toList) := by
    intro x y h
    induction h with
    | single h =>
      rcases hedge _ _ h with ⟨hx, hy⟩ | ⟨hx, hy⟩
      · exact Or.inl ⟨hx, hy⟩
      · exact Or.inr (Or.inl ⟨hx, hy⟩)
    | tail _ hby ih =>
      rcases hedge _ _ hby with ⟨hb1, hy⟩ | ⟨hb1, hy⟩
      · rcases ih with ⟨_, hb2⟩ | ⟨_, hb2⟩ | ⟨_, hb2⟩
        · exact absurd (hb2 ▸ hb1 : ("b".toList : Str) = "a::x".toList) (by decide)
        · exact absurd (hb2 ▸ hb1 : ("a::y".toList : Str) = "a::x".toList) (by decide)
        · exact absurd (hb2 ▸ hb1 : ("a::y".toList : Str) = "a::x".toList) (by decide)
      · rcases ih with ⟨hx, hb2⟩ | ⟨_, hb2⟩ | ⟨_, hb2⟩
        · exact Or.inr (Or.inr ⟨hx, hy⟩)
        · exact absurd (hb2 ▸ hb1 : ("a::y".toList : Str) = "b".toList) (by decide)
        · exact absurd (hb2 ▸ hb1 : ("a::y".toList : Str) = "b".toList) (by decide)
  intro a ha
  rcases hreach2 a a ha with ⟨h1, h2⟩ | ⟨h1, h2⟩ | ⟨h1, h2⟩ <;>
    exact absurd (h1.symm.trans h2) (by decide)

/-- C4 witness: the amended theorem applied to the empty graph, whose
truncation is trivially acyclic. -/
theorem c4_dag_no_cycles_witness :
    find_all_cycles_in_dependencies ([] : Graph) 1 = some [] :=
  c4_dag_no_cycles [] 1 (by
    intro a h
    cases h with
    | single h =>
      obtain ⟨kv, hkv, _⟩ := h
      exact absurd hkv (List.not_mem_nil kv)
    | tail _ h2 =>
      obtain ⟨kv, hkv, _⟩ := h2
      exact absurd hkv (List.not_mem_nil kv))

end RustArkitect
